import Mathlib

/-!
Verification development for `pyimq/external/radial_profile.py`.

The module computes radial and azimuthal intensity profiles of a 2D image.
We give a shallow embedding of the four entry points
(`azimuthal_average`, `azimuthal_average_bins`, `radial_average`,
`radial_average_bins`) over exact rational arithmetic:

* Pixel values, weights, centers and bin sizes are rationals.
* The distance map `r = hypot(x - cx, y - cy)` is irrational in general, but
  every use of `r` in the source is an order comparison against a rational
  threshold (bin edges `k * binsize`, band boundaries) or a round of
  `r.max() / binsize`.  We therefore carry the exact squared distance
  `r2 = (x - cx)^2 + (y - cy)^2` and decide each comparison
  `e <= sqrt r2` by the equivalent rational test `e <= 0 or e^2 <= r2`.
* The angle map `theta_deg` (from `np.arctan2`, wrapped to [0, 360)) is
  transcendental; the source only ever compares it with rational thresholds.
  It is passed to the embedded functions as an explicit rational-valued map,
  and theorems about `radial_average` / the `_bins` variants quantify over it.
* IEEE float special values that the source relies on (NaN from the
  divide-by-sum-of-weights on an empty bin, the NaN produced by
  `np.std` of an empty slice) are modelled by an explicit value type `Val`.
* `raise ValueError` is modelled by `Except.error`.
-/

namespace RadialProfile

attribute [local semireducible] Rat.add Rat.sub Rat.mul Rat.inv

/-- Profile values: exact rationals plus the IEEE special values the source
produces (`0/0 → nan`, `x/0 → ±inf`), plus `sqrtv q` denoting the exact
(generally irrational) square root of a nonnegative rational, produced by the
standard-deviation aggregation `np.std`. -/
inductive Val where
  | num (q : ℚ)
  | nan
  | pinf
  | ninf
  | sqrtv (q : ℚ)
deriving DecidableEq

/-- IEEE division of two exact rationals, as performed by
`sum(image*weights) / sum(weights)`: `0/0` is NaN, `x/0` is a signed
infinity, otherwise exact. -/
def fdiv (a b : ℚ) : Val :=
  if b = 0 then
    if a = 0 then Val.nan else if 0 < a then Val.pinf else Val.ninf
  else Val.num (a / b)

/-- Decide `sqrt r2 < e` for `r2 ≥ 0` without computing the square root:
this holds iff `e` is positive and `r2 < e^2`. -/
def ltSqrtB (e : ℚ) (r2 : ℚ) : Bool :=
  decide (0 < e ∧ r2 < e ^ 2)

/-- Decide `e < sqrt r2` for `r2 ≥ 0`: holds iff `e` is negative or
`e^2 < r2`. -/
def gtSqrtB (e : ℚ) (r2 : ℚ) : Bool :=
  decide (e < 0 ∨ e ^ 2 < r2)

/-- Decide `e ≤ sqrt r2` for `r2 ≥ 0`: holds iff `e ≤ 0` or `e^2 ≤ r2`. -/
def leSqrtB (e : ℚ) (r2 : ℚ) : Bool :=
  decide (e ≤ 0 ∨ e ^ 2 ≤ r2)

/-- Floor of the square root of a nonnegative rational:
the largest natural `n` with `n^2 ≤ q` (`n ≤ sqrt q ↔ n^2 ≤ q`), computed by
counting the naturals `n ≤ ⌊q⌋` with `n * n ≤ ⌊q⌋` — a structurally
reducing equivalent of `Nat.sqrt ⌊q⌋`. -/
def natFloorSqrt (q : ℚ) : ℕ :=
  ((List.range (Int.toNat ⌊q⌋ + 1)).filter fun n =>
    decide (n * n ≤ Int.toNat ⌊q⌋)).length - 1

/-- `np.round (sqrt q)` for `q ≥ 0`, computed exactly: round half to even
(banker's rounding, numpy's rounding mode), deciding the comparison with the
half-integer midpoint by squaring. -/
def roundHalfEvenSqrt (q : ℚ) : ℕ :=
  let f := natFloorSqrt q
  if q < ((f : ℚ) + 1 / 2) ^ 2 then f
  else if ((f : ℚ) + 1 / 2) ^ 2 < q then f + 1
  else if f % 2 = 0 then f else f + 1

/-- `np.round q` for a rational `q`: round half to even. -/
def roundHalfEven (q : ℚ) : ℤ :=
  let f := ⌊q⌋
  if q - f < 1 / 2 then f
  else if (1 : ℚ) / 2 < q - f then f + 1
  else if f % 2 = 0 then f else f + 1

/-- Python's float `%` for a positive modulus: the representative in
`[0, n)` (the result takes the sign of the divisor). -/
def pmod (a n : ℚ) : ℚ :=
  a - n * ⌊a / n⌋

/-- A 2D image: `rows × cols` rational samples, `data i j` the value at
row `i`, column `j`.  `np.indices` gives `y = row index`, `x = column
index`. -/
structure Image where
  rows : ℕ
  cols : ℕ
  data : ℕ → ℕ → ℚ

/-- The pixel index list `(i, j)`, `i < rows`, `j < cols`, in the row-major
order of `ndarray.flat`. -/
def pixels (rows cols : ℕ) : List (ℕ × ℕ) :=
  (List.range rows).flatMap fun i => (List.range cols).map fun j => (i, j)

/-- The keyword-argument configuration shared by `azimuthal_average` and
`radial_average` (the same record serves both: `returnradii` / `return_nr`
play the roles of `return_az` / `return_naz` in `radial_average`, and
`sum_bin` is read only by `azimuthal_average`, exactly as the source's
`kwargs.get` calls ignore unknown keywords). -/
structure Config where
  center : Option (ℚ × ℚ) := none
  stddev : Bool := false
  returnradii : Bool := false
  return_nr : Bool := false
  binsize : ℚ := 1 / 2
  weights : Option (ℕ → ℕ → ℚ) := none
  steps : Bool := false
  interpnan : Bool := false
  left : Option ℚ := none
  right : Option ℚ := none
  mask : Option (ℕ → ℕ → Bool) := none
  sum_bin : Bool := false

deriving instance DecidableEq for Except

/-- The mutually exclusive output shapes of `azimuthal_average` /
`radial_average`, selected by the flags `steps`, `returnradii` (`return_az`),
`return_nr` (`return_naz`). -/
inductive AzOutput where
  | steps (xarr : List ℚ) (yarr : List Val)
  | radii (bin_centers : List ℚ) (prof : List Val)
  | nr (nr : List ℕ) (bin_centers : List ℚ) (prof : List Val)
  | prof (prof : List Val)
deriving DecidableEq

/-- The profile component of each output shape. -/
def AzOutput.profile : AzOutput → List Val
  | .steps _ y => y
  | .radii _ p => p
  | .nr _ _ p => p
  | .prof p => p

/-- Numeric tag of the output shape: 0 = steps, 1 = radii, 2 = nr,
3 = plain profile. -/
def AzOutput.tag : AzOutput → ℕ
  | .steps _ _ => 0
  | .radii _ _ => 1
  | .nr _ _ _ => 2
  | .prof _ => 3

/-- IEEE negation of a `Val`. -/
def Val.neg : Val → Val
  | .num a => .num (-a)
  | .nan => .nan
  | .pinf => .ninf
  | .ninf => .pinf
  | .sqrtv a => if a = 0 then .num 0 else .nan

/-- IEEE addition on `Val`.  The `sqrtv` cases other than `sqrt 0` denote
irrational reals that leave our representable value set; they are written as
`nan` here but are unreachable in this development, because the only
consumer (`valInterp`) is ever applied at query points that coincide with a
sample point, where numpy short-circuits before any arithmetic. -/
def Val.add : Val → Val → Val
  | .nan, _ => .nan
  | _, .nan => .nan
  | .num a, .num b => .num (a + b)
  | .pinf, .ninf => .nan
  | .ninf, .pinf => .nan
  | .pinf, _ => .pinf
  | _, .pinf => .pinf
  | .ninf, _ => .ninf
  | _, .ninf => .ninf
  | .sqrtv a, .num b => if a = 0 then .num b else .nan
  | .num a, .sqrtv b => if b = 0 then .num a else .nan
  | .sqrtv a, .sqrtv b => if a = 0 ∧ b = 0 then .num 0 else .nan

/-- IEEE subtraction on `Val`. -/
def Val.sub (a b : Val) : Val := Val.add a (Val.neg b)

/-- IEEE multiplication of a `Val` by an exact rational scalar
(`0 * inf = nan`). -/
def Val.mulQ : Val → ℚ → Val
  | .nan, _ => .nan
  | .num a, c => .num (a * c)
  | .pinf, c => if c = 0 then .nan else if 0 < c then .pinf else .ninf
  | .ninf, c => if c = 0 then .nan else if 0 < c then .ninf else .pinf
  | .sqrtv a, c => if a = 0 ∨ c = 0 then .num 0 else if c = 1 then .sqrtv a else .nan

/-- IEEE division of a `Val` by an exact rational scalar
(`inf / 0 = inf`, `x / 0` signed infinity of sign `x`). -/
def Val.divQ : Val → ℚ → Val
  | .nan, _ => .nan
  | .num a, c => fdiv a c
  | .pinf, c => if c < 0 then .ninf else .pinf
  | .ninf, c => if c < 0 then .pinf else .ninf
  | .sqrtv a, c => if a = 0 then fdiv 0 c else if c = 1 then .sqrtv a else .nan

/-- Python float equality test on `Val` (`nan == nan` is false). -/
def Val.feq (a b : Val) : Bool :=
  a == b && a != .nan

/-- The linear-interpolation step of numpy's `arr_interp` for a query `x`
strictly between the sample abscissae `x0 < x1` with ordinates `f0`, `f1`:
`slope = (f1 - f0) / (x1 - x0)`, first try `slope*(x - x0) + f0`; if that is
NaN retry from the right end, and if still NaN fall back to `f0` when
`f0 == f1` (numpy's "if we get nan in one direction, try the other"
logic). -/
def valInterp (x x0 x1 : ℚ) (f0 f1 : Val) : Val :=
  let slope := Val.divQ (Val.sub f1 f0) (x1 - x0)
  let r1 := Val.add (Val.mulQ slope (x - x0)) f0
  if r1 = Val.nan then
    let r2 := Val.add (Val.mulQ slope (x - x1)) f1
    if r2 = Val.nan ∧ Val.feq f0 f1 then f0 else r2
  else r1

/-- One query of `np.interp x xp fp` for sorted `xp` of length ≥ 2:
out-of-range queries take the `left` / `right` fill values (defaulting to the
first / last ordinate), a query equal to a sample abscissa returns that
sample's ordinate exactly (numpy's "avoid potential non-finite
interpolation" short-circuit), and otherwise the linear step runs. -/
def interpOne (xp : List ℚ) (fp : List Val) (lval rval : Val) (x : ℚ) : Val :=
  if x < xp.headD 0 then lval
  else if xp.getLastD 0 < x then rval
  else
    let j := xp.countP (fun e => decide (e ≤ x)) - 1
    if xp.getD j 0 = x then fp.getD j Val.nan
    else valInterp x (xp.getD j 0) (xp.getD (j + 1) 0) (fp.getD j Val.nan)
        (fp.getD (j + 1) Val.nan)

/-- `np.interp xq xp fp left right`: raises on an empty sample array or on a
length mismatch between `xp` and `fp`, otherwise maps `interpOne` over the
queries.  A single sample point is handled by numpy's dedicated
`lenxp == 1` branch. -/
def npInterp (xq xp : List ℚ) (fp : List Val) (left right : Option ℚ) :
    Except String (List Val) :=
  if xp.length = 0 then Except.error "array of sample points is empty"
  else if xp.length ≠ fp.length then
    Except.error "fp and xp are not of the same length."
  else if xp.length = 1 then
    Except.ok (xq.map fun x =>
      if x < xp.headD 0 then (left.map Val.num).getD (fp.headD Val.nan)
      else if xp.headD 0 < x then (right.map Val.num).getD (fp.headD Val.nan)
      else fp.headD Val.nan)
  else
    Except.ok (xq.map
      (interpOne xp fp ((left.map Val.num).getD (fp.headD Val.nan))
        ((right.map Val.num).getD (fp.getLastD Val.nan))))

/-- `np.array(list(...)).ravel()` over a list of pairs: the pairs laid out
flat. -/
def pairsFlat {α : Type} (l : List (α × α)) : List α :=
  l.flatMap fun p => [p.1, p.2]

/-- The step-plot abscissae
`np.array(list(zip(bins[:-1], bins[1:]))).ravel()`: each of the `nbins` bins
contributes its left and right edge (the linspace edges are exactly
`k * binsize`). -/
def stepsX (binsize : ℚ) (nbins : ℕ) : List ℚ :=
  pairsFlat ((List.range nbins).map fun k : ℕ =>
    ((k : ℚ) * binsize, ((k : ℚ) + 1) * binsize))

/-- The step-plot ordinates `np.array(list(zip(prof, prof))).ravel()`: every
profile entry duplicated in place. -/
def stepsY (prof : List Val) : List Val :=
  pairsFlat (prof.zip prof)

/-- An angle map: the per-pixel value of
`theta_deg = arctan2(x - cx, y - cy) * 180 / pi` wrapped to `[0, 360)`.
The arctangent is transcendental, so the embedded `radial_average` and the
`_bins` variants take the angle map as an explicit argument; the source only
ever compares it with rational thresholds. -/
def ThetaMap : Type := ℕ → ℕ → ℚ

/-- Default center `[(x.max - x.min)/2, (y.max - y.min)/2]`, i.e.
`((cols-1)/2, (rows-1)/2)` in `(cx, cy)` order. -/
def defaultCenter (img : Image) : ℚ × ℚ :=
  (((img.cols : ℚ) - 1) / 2, ((img.rows : ℚ) - 1) / 2)

/-- The effective center of a call: the `center` keyword or the default. -/
def azCenter (img : Image) (cfg : Config) : ℚ × ℚ :=
  cfg.center.getD (defaultCenter img)

/-- Squared distance of pixel `p = (row, col)` from center `c = (cx, cy)`:
the exact value of `hypot(x - cx, y - cy)^2`. -/
def r2At (c : ℚ × ℚ) (p : ℕ × ℕ) : ℚ :=
  ((p.2 : ℚ) - c.1) ^ 2 + ((p.1 : ℚ) - c.2) ^ 2

/-- The squared distance map of an `azimuthal_average` call. -/
def azR2 (img : Image) (cfg : Config) (p : ℕ × ℕ) : ℚ :=
  r2At (azCenter img cfg) p

/-- Maximum of a list of nonnegative rationals (`ndarray.max()`; the `0`
seed is absorbed because every entry we fold is a square or an angle in
`[0, 360)`). -/
def listMax0 (l : List ℚ) : ℚ :=
  l.foldl max 0

/-- The maximal squared distance `r.max()^2` over the image. -/
def azRmax2 (img : Image) (cfg : Config) : ℚ :=
  listMax0 ((pixels img.rows img.cols).map (azR2 img cfg))

/-- `nbins = int(np.round(r.max() / binsize) + 1)`: for `binsize > 0`,
`r.max() / binsize = sqrt(rmax2 / binsize^2)`, rounded half to even. -/
def azNbins (img : Image) (cfg : Config) : ℕ :=
  roundHalfEvenSqrt (azRmax2 img cfg / cfg.binsize ^ 2) + 1

/-- `whichbin = np.digitize(r.flat, bins)` at pixel `p`: the number of the
`nbins + 1` linspace edges `k * binsize` that are `≤ r`, decided on squares.
The edge `0` always counts, so the result is at least 1. -/
def azWhichbin (img : Image) (cfg : Config) (p : ℕ × ℕ) : ℕ :=
  ((List.range (azNbins img cfg + 1)).filter
    (fun k : ℕ => leSqrtB ((k : ℚ) * cfg.binsize) (azR2 img cfg p))).length

/-- `bin_centers = (bins[1:] + bins[:-1]) / 2`: the midpoints
`(k + 1/2) * binsize`. -/
def binCentersFull (binsize : ℚ) (nbins : ℕ) : List ℚ :=
  (List.range nbins).map fun k : ℕ => ((k : ℚ) + 1 / 2) * binsize

/-- `sampling_freq = (x.max() - x.min()) / 2 = (cols - 1) / 2`. -/
def azSamplingFreq (img : Image) : ℚ :=
  ((img.cols : ℚ) - 1) / 2

/-- `nbins_true = int(sampling_freq / binsize)` (truncation of a
nonnegative quotient, i.e. the floor for `binsize > 0`). -/
def azNbinsTrue (img : Image) (cfg : Config) : ℕ :=
  Int.toNat ⌊azSamplingFreq img / cfg.binsize⌋

/-- `bin_centers = bin_centers[0:nbins_true]`. -/
def azBinCenters (img : Image) (cfg : Config) : List ℚ :=
  (binCentersFull cfg.binsize (azNbins img cfg)).take (azNbinsTrue img cfg)

/-- The effective mask: the `mask` keyword or all-true. -/
def maskFn (cfg : Config) (p : ℕ × ℕ) : Bool :=
  (cfg.mask.getD fun _ _ => true) p.1 p.2

/-- The effective weights: the `weights` keyword or all-ones. -/
def weightFn (cfg : Config) (p : ℕ × ℕ) : ℚ :=
  (cfg.weights.getD fun _ _ => 1) p.1 p.2

/-- The pixels selected by `mask * (whichbin == b)`. -/
def selectBin (ps : List (ℕ × ℕ)) (m : (ℕ × ℕ) → Bool) (wb : (ℕ × ℕ) → ℕ)
    (b : ℕ) : List (ℕ × ℕ) :=
  ps.filter fun p => m p && (wb p == b)

/-- `(image * weights).flat[sel].sum() / weights.flat[sel].sum()`: the
weighted-mean aggregate of one bin (IEEE division, so an empty bin yields
`0 / 0 = nan`). -/
def meanAgg (img : Image) (w : (ℕ × ℕ) → ℚ) (sel : List (ℕ × ℕ)) : Val :=
  fdiv ((sel.map fun p => img.data p.1 p.2 * w p).sum) ((sel.map w).sum)

/-- `(image * weights).flat[sel].sum()`: the sum aggregate of one bin. -/
def sumAgg (img : Image) (w : (ℕ × ℕ) → ℚ) (sel : List (ℕ × ℕ)) : Val :=
  Val.num ((sel.map fun p => img.data p.1 p.2 * w p).sum)

/-- `ndarray.std()` of the selected values: NaN on an empty slice,
otherwise the square root of the population variance (the variance is an
exact rational; its root is carried symbolically by `Val.sqrtv`). -/
def stdAgg (vals : List ℚ) : Val :=
  if vals.length = 0 then Val.nan
  else Val.sqrtv
    (((vals.map fun v => (v - vals.sum / (vals.length : ℚ)) ^ 2).sum) /
      (vals.length : ℚ))

/-- `np.bincount(whichbin)[1:]`: for `b = 1, …, max(whichbin)` the number of
pixels assigned to bin `b` (bin 0 is discarded; the mask plays no part
here). -/
def bincountTail {α : Type} (ps : List α) (wb : α → ℕ) : List ℕ :=
  (List.range ((ps.map wb).foldl max 0)).map fun b =>
    ps.countP fun p => wb p == b + 1

/-- `nr` of `azimuthal_average`. -/
def azNr (img : Image) (cfg : Config) : List ℕ :=
  bincountTail (pixels img.rows img.cols) (azWhichbin img cfg)

/-- The raw radial profile of `azimuthal_average`: the standard-deviation
branch iterates `b in range(1, nbins + 1)` while the sum and weighted-mean
branches iterate `b in range(1, nbins_true + 1)`. -/
def azProfRaw (img : Image) (cfg : Config) : List Val :=
  let ps := pixels img.rows img.cols
  let wbf := azWhichbin img cfg
  if cfg.stddev then
    (List.range (azNbins img cfg)).map fun b =>
      stdAgg ((selectBin ps (maskFn cfg) wbf (b + 1)).map fun p =>
        img.data p.1 p.2)
  else if cfg.sum_bin then
    (List.range (azNbinsTrue img cfg)).map fun b =>
      sumAgg img (weightFn cfg) (selectBin ps (maskFn cfg) wbf (b + 1))
  else
    (List.range (azNbinsTrue img cfg)).map fun b =>
      meanAgg img (weightFn cfg) (selectBin ps (maskFn cfg) wbf (b + 1))

/-- The radial profile after the optional
`np.interp(bin_centers, bin_centers, radial_prof, left, right)` pass. -/
def azProfFinal (img : Image) (cfg : Config) : Except String (List Val) :=
  if cfg.interpnan then
    npInterp (azBinCenters img cfg) (azBinCenters img cfg) (azProfRaw img cfg)
      cfg.left cfg.right
  else Except.ok (azProfRaw img cfg)

/-- The trailing `if steps / elif returnradii / elif return_nr / else`
chain shared by both entry points. -/
def selectOutput (cfg : Config) (nbins : ℕ) (nr : List ℕ) (bc : List ℚ)
    (prof : List Val) : AzOutput :=
  if cfg.steps then AzOutput.steps (stepsX cfg.binsize nbins) (stepsY prof)
  else if cfg.returnradii then AzOutput.radii bc prof
  else if cfg.return_nr then AzOutput.nr nr bc prof
  else AzOutput.prof prof

/-- The error message of the weighted-standard-deviation check. -/
def weightedStdMsg : String := "Weighted standard deviation is not defined."

/-- `azimuthal_average(image, **kwargs)`: the weighted-standard-deviation
check fires first (before any profile value is computed); afterwards the
profile is assembled and the output shape selected. -/
def azimuthal_average (img : Image) (cfg : Config) : Except String AzOutput :=
  if cfg.stddev ∧ cfg.weights.isSome then Except.error weightedStdMsg
  else
    (azProfFinal img cfg).map fun prof =>
      selectOutput cfg (azNbins img cfg) (azNr img cfg) (azBinCenters img cfg)
        prof

/-- `theta_deg.max()` over the image. -/
def radThetaMax (θ : ThetaMap) (img : Image) : ℚ :=
  listMax0 ((pixels img.rows img.cols).map fun p => θ p.1 p.2)

/-- `nbins = np.round(theta_deg.max() / binsize) + 1` of `radial_average`
(no truncation of the bin range here, unlike the radial case). -/
def radNbins (θ : ThetaMap) (img : Image) (cfg : Config) : ℕ :=
  Int.toNat (roundHalfEven (radThetaMax θ img / cfg.binsize)) + 1

/-- `whichbin = np.digitize(theta_deg.flat, bins)` at pixel `p`: the number
of linspace edges `k * binsize` that are `≤ theta_deg`. -/
def radWhichbin (θ : ThetaMap) (img : Image) (cfg : Config) (p : ℕ × ℕ) : ℕ :=
  ((List.range (radNbins θ img cfg + 1)).filter
    (fun k : ℕ => decide ((k : ℚ) * cfg.binsize ≤ θ p.1 p.2))).length

/-- `bin_centers` of `radial_average`: all `nbins` midpoints are kept. -/
def radBinCenters (θ : ThetaMap) (img : Image) (cfg : Config) : List ℚ :=
  binCentersFull cfg.binsize (radNbins θ img cfg)

/-- `nr` of `radial_average` (named `nr` in the source as well). -/
def radNr (θ : ThetaMap) (img : Image) (cfg : Config) : List ℕ :=
  bincountTail (pixels img.rows img.cols) (radWhichbin θ img cfg)

/-- The raw azimuthal profile of `radial_average`: both branches iterate
`b in range(1, nbins + 1)`. -/
def radProfRaw (θ : ThetaMap) (img : Image) (cfg : Config) : List Val :=
  let ps := pixels img.rows img.cols
  let wbf := radWhichbin θ img cfg
  if cfg.stddev then
    (List.range (radNbins θ img cfg)).map fun b =>
      stdAgg ((selectBin ps (maskFn cfg) wbf (b + 1)).map fun p =>
        img.data p.1 p.2)
  else
    (List.range (radNbins θ img cfg)).map fun b =>
      meanAgg img (weightFn cfg) (selectBin ps (maskFn cfg) wbf (b + 1))

/-- The azimuthal profile after the optional `np.interp` pass. -/
def radProfFinal (θ : ThetaMap) (img : Image) (cfg : Config) :
    Except String (List Val) :=
  if cfg.interpnan then
    npInterp (radBinCenters θ img cfg) (radBinCenters θ img cfg)
      (radProfRaw θ img cfg) cfg.left cfg.right
  else Except.ok (radProfRaw θ img cfg)

/-- `radial_average(image, **kwargs)`: mirror of `azimuthal_average` with
angle in place of radius; the `returnradii` / `return_nr` record fields
stand for the `return_az` / `return_naz` keywords. -/
def radial_average (θ : ThetaMap) (img : Image) (cfg : Config) :
    Except String AzOutput :=
  if cfg.stddev ∧ cfg.weights.isSome then Except.error weightedStdMsg
  else
    (radProfFinal θ img cfg).map fun prof =>
      selectOutput cfg (radNbins θ img cfg) (radNr θ img cfg)
        (radBinCenters θ img cfg) prof

/-- `np.linspace a b n`: `n` evenly spaced points from `a` to `b`
inclusive (`[a]` for `n = 1`, empty for `n = 0`). -/
def linspaceQ (a b : ℚ) (n : ℕ) : List ℚ :=
  if n = 0 then []
  else if n = 1 then [a]
  else (List.range n).map fun k : ℕ => a + (b - a) * (k : ℚ) / ((n : ℚ) - 1)

/-- The `azbins` / `radbins` argument of the `_bins` variants: either an
explicit boundary array or an integer count (any other argument raises
`ValueError` in the source and is not representable here). -/
inductive BinArg where
  | arr (bs : List ℚ)
  | intN (n : ℕ)

/-- The sector mask of `azimuthal_average_bins`:
`(theta_deg > blow % 360) * (theta_deg < bhigh % 360)` — strict
inequalities on both sides, boundaries reduced by Python's float `%`. -/
def sectorMask (θf : ThetaMap) (blow bhigh : ℚ) (p : ℕ × ℕ) : Bool :=
  decide (pmod blow 360 < θf p.1 p.2) && decide (θf p.1 p.2 < pmod bhigh 360)

/-- Unpacking `rr, zz = azimuthal_average(...)`: with `returnradii=True`
forced, the inner call yields the `radii` shape, unless a passed-through
`steps=True` wins, in which case the step arrays are unpacked instead; a
three-component shape would fail to unpack (unreachable here). -/
def unpack2 : AzOutput → Except String (List ℚ × List Val)
  | .steps xa ya => Except.ok (xa, ya)
  | .radii bc p => Except.ok (bc, p)
  | _ => Except.error "too many values to unpack"

/-- The sequential loop body of the `_bins` variants: run `f` on each
element in order, stopping at the first raised error, collecting the
results (Python's `for … : lst.append(f(…))`). -/
def mapMExcept {α β : Type} (f : α → Except String β) :
    List α → Except String (List β)
  | [] => Except.ok []
  | a :: as => do
      let b ← f a
      let bs ← mapMExcept f as
      Except.ok (b :: bs)

/-- Resolution of the `azbins` argument (source lines 140-152): an integer
count expands to `np.linspace` boundaries — over `[0, 90]` with the angle
map folded modulo 90 when `symmetric == 2`, over `[0, 180]` modulo 180 when
`symmetric == 1`, over `[0, 360]` otherwise — while an explicit array is
used as is, with the angle map untouched. -/
def azbinsResolved (θ : ThetaMap) (azbins : BinArg) (symmetric : Option ℕ) :
    ThetaMap × List ℚ :=
  match azbins with
  | .arr bs => (θ, bs)
  | .intN n =>
    match symmetric with
    | some 2 => ((fun i j => pmod (θ i j) 90), linspaceQ 0 90 n)
    | some 1 => ((fun i j => pmod (θ i j) 180), linspaceQ 0 180 n)
    | _ => (θ, linspaceQ 0 360 n)

/-- One iteration of the sector loop:
`rr, zz = azimuthal_average(image, center=center, mask=mask,
returnradii=True, **kwargs)`. -/
def azSectorCall (img : Image) (cfg : Config) (c : ℚ × ℚ) (θf : ThetaMap)
    (s : ℚ × ℚ) : Except String (List ℚ × List Val) := do
  let out ← azimuthal_average img
    { cfg with center := some c,
               mask := some (fun i j => sectorMask θf s.1 s.2 (i, j)),
               returnradii := true }
  unpack2 out

/-- `azimuthal_average_bins(image, azbins, symmetric=None, center=None,
**kwargs)`: one radial profile per consecutive boundary pair, the radius
array `rr` of the last sector returned alongside.  An empty sector list
leaves `rr` unbound (`NameError` in Python). -/
def azimuthal_average_bins (θ : ThetaMap) (img : Image) (azbins : BinArg)
    (symmetric : Option ℕ) (center : Option (ℚ × ℚ)) (cfg : Config) :
    Except String (List ℚ × List ℚ × List (List Val)) :=
  let c := center.getD (defaultCenter img)
  let θf := (azbinsResolved θ azbins symmetric).1
  let bs := (azbinsResolved θ azbins symmetric).2
  match mapMExcept (azSectorCall img cfg c θf) (bs.zip bs.tail) with
  | Except.error e => Except.error e
  | Except.ok results =>
    match results.getLast? with
    | none => Except.error "name rr is not defined"
    | some last => Except.ok (bs, last.1, results.map Prod.snd)

/-- The band mask of `radial_average_bins`: `(r < bhigh) * (r > blow)` —
strict inequalities on both sides, decided on the squared distance. -/
def bandMask (c : ℚ × ℚ) (blow bhigh : ℚ) (p : ℕ × ℕ) : Bool :=
  ltSqrtB bhigh (r2At c p) && gtSqrtB blow (r2At c p)

/-- One iteration of the band loop:
`az, zz = radial_average(image, center=center, mask=mask,
return_az=True, **kwargs)`. -/
def radBandCall (θ : ThetaMap) (img : Image) (cfg : Config) (c : ℚ × ℚ)
    (s : ℚ × ℚ) : Except String (List ℚ × List Val) := do
  let out ← radial_average θ img
    { cfg with center := some c,
               mask := some (fun i j => bandMask c s.1 s.2 (i, j)),
               returnradii := true }
  unpack2 out

/-- `radial_average_bins(image, radbins, corners=True, center=None,
**kwargs)`, for an explicit boundary array `radbins` (the integer form
expands by `np.linspace` up to `r.max()` — an irrational endpoint when
`corners` is true — and is outside the claims of this development): one
azimuthal profile per consecutive boundary pair, the angle array `az` of
the last band returned alongside. -/
def radial_average_bins (θ : ThetaMap) (img : Image) (radbins : List ℚ)
    (center : Option (ℚ × ℚ)) (cfg : Config) :
    Except String (List ℚ × List ℚ × List (List Val)) :=
  let c := center.getD (defaultCenter img)
  match mapMExcept (radBandCall θ img cfg c) (radbins.zip radbins.tail) with
  | Except.error e => Except.error e
  | Except.ok results =>
    match results.getLast? with
    | none => Except.error "name az is not defined"
    | some last => Except.ok (radbins, last.1, results.map Prod.snd)

/-! ### Concrete instances used to exercise the embedding -/

/-- A 3 × 3 all-zeros image. -/
def imgZeros3 : Image := ⟨3, 3, fun _ _ => 0⟩

/-- A 5 × 5 all-ones image. -/
def imgOnes5 : Image := ⟨5, 5, fun _ _ => 1⟩

/-- A 1 × 3 image whose entries are the column index. -/
def imgRow3 : Image := ⟨1, 3, fun _ j => (j : ℚ)⟩

/-- A concrete rational angle map (stands in for the transcendental
`arctan2`-based map in closed evaluations). -/
def thetaDemo : ThetaMap := fun i j => (40 * i + 15 * j : ℚ)

/-! ### Generic counting infrastructure -/

/-- Seeds never exceed a `foldl max`. -/
theorem foldl_max_init_le {α : Type} [LinearOrder α] (l : List α) :
    ∀ a : α, a ≤ l.foldl max a := by
  induction l with
  | nil => intro a; exact le_refl a
  | cons b t ih => intro a; exact le_trans (le_max_left a b) (ih (max a b))

/-- Every member of a list is bounded by its `foldl max`. -/
theorem le_foldl_max {α : Type} [LinearOrder α] (l : List α) (x : α) :
    ∀ a : α, x ∈ l → x ≤ l.foldl max a := by
  induction l with
  | nil => intro a hx; cases hx
  | cons b t ih =>
    intro a hx
    rcases List.mem_cons.mp hx with h | h
    · subst h; exact le_trans (le_max_right a x) (foldl_max_init_le t (max a x))
    · exact ih (max a b) h

/-- A downward-closed predicate holds on `k < N` exactly when `k` is below
the predicate's count over `range N`: the filtered set is an initial
segment. -/
theorem countP_range_downclosed_char (p : ℕ → Bool)
    (hd : ∀ j k, j ≤ k → p k = true → p j = true) :
    ∀ N k, k < N → (p k = true ↔ k < (List.range N).countP p) := by
  intro N
  induction N with
  | zero => intro k hk; exact absurd hk (Nat.not_lt_zero k)
  | succ n ih =>
    intro k hk
    by_cases hpn : p n = true
    · have hall : ∀ a ∈ List.range (n + 1), p a = true := by
        intro a ha
        exact hd a n (Nat.lt_succ_iff.mp (List.mem_range.mp ha)) hpn
      have hcnt : (List.range (n + 1)).countP p = n + 1 := by
        rw [List.countP_eq_length.mpr hall, List.length_range]
      rw [hcnt]
      exact iff_of_true (hall k (List.mem_range.mpr hk)) hk
    · have hcnt : (List.range (n + 1)).countP p = (List.range n).countP p := by
        rw [List.range_succ, List.countP_append, List.countP_singleton]
        simp [hpn]
      rw [hcnt]
      rcases Nat.lt_succ_iff_lt_or_eq.mp hk with h | h
      · exact ih k h
      · subst h
        have hle : (List.range k).countP p ≤ k := by
          calc (List.range k).countP p ≤ (List.range k).length :=
                List.countP_le_length p
            _ = k := List.length_range k
        exact iff_of_false (by simp [hpn]) (Nat.not_lt.mpr hle)

/-- The filtered-length form of `countP_range_downclosed_char`. -/
theorem filter_range_downclosed_char (p : ℕ → Bool)
    (hd : ∀ j k, j ≤ k → p k = true → p j = true) (N k : ℕ) (hk : k < N) :
    p k = true ↔ k < ((List.range N).filter p).length := by
  rw [← List.countP_eq_length_filter]
  exact countP_range_downclosed_char p hd N k hk

/-- Splitting a two-sided count at its upper bound. -/
theorem countP_split_last {α : Type} (l : List α) (f : α → ℕ) (t : ℕ) :
    (l.countP fun a => decide (1 ≤ f a ∧ f a ≤ t + 1)) =
      (l.countP fun a => decide (1 ≤ f a ∧ f a ≤ t)) +
        l.countP (fun a => f a == t + 1) := by
  induction l with
  | nil => rfl
  | cons a as ih =>
    simp only [List.countP_cons, ih, beq_iff_eq, decide_eq_true_eq]
    by_cases h1 : 1 ≤ f a ∧ f a ≤ t + 1 <;> by_cases h2 : 1 ≤ f a ∧ f a ≤ t <;>
      by_cases h3 : f a = t + 1 <;> simp [h1, h2, h3] <;> omega

/-- Summing per-bin counts over the bins `1, …, m` counts the elements whose
bin lies in that range. -/
theorem sum_range_counts {α : Type} (ps : List α) (f : α → ℕ) :
    ∀ m : ℕ,
      ((List.range m).map fun b => ps.countP fun p => f p == b + 1).sum =
        ps.countP fun p => decide (1 ≤ f p ∧ f p ≤ m) := by
  intro m
  induction m with
  | zero =>
    simp only [List.range_zero, List.map_nil, List.sum_nil]
    rw [eq_comm, List.countP_eq_zero]
    intro a _
    simp only [decide_eq_true_eq, not_and]
    omega
  | succ n ih =>
    rw [List.range_succ, List.map_append, List.sum_append, countP_split_last]
    simp [ih]

/-- The sum of the first `t` entries of `bincountTail` counts the elements
assigned to bins `1, …, t` (when `t` exceeds the number of entries, all
positive bins are below `t` anyway). -/
theorem bincountTail_take_sum {α : Type} (ps : List α) (f : α → ℕ) (t : ℕ) :
    ((bincountTail ps f).take t).sum =
      ps.countP fun p => decide (1 ≤ f p ∧ f p ≤ t) := by
  have hub : ∀ p ∈ ps, f p ≤ (ps.map f).foldl max 0 := by
    intro p hp
    exact le_foldl_max (ps.map f) (f p) 0 (List.mem_map_of_mem f hp)
  unfold bincountTail
  rw [← List.map_take, List.take_range, sum_range_counts]
  apply List.countP_congr
  intro p hp
  have := hub p hp
  constructor <;> intro h <;> simp only [decide_eq_true_eq] at * <;> omega

/-! ### Membership and nonnegativity facts -/

/-- Pixel membership: `(i, j)` is a pixel iff `i < rows` and `j < cols`. -/
theorem mem_pixels_iff {rows cols : ℕ} {p : ℕ × ℕ} :
    p ∈ pixels rows cols ↔ p.1 < rows ∧ p.2 < cols := by
  rcases p with ⟨i, j⟩
  simp [pixels, List.mem_flatMap, List.mem_range]

/-- A squared distance is nonnegative. -/
theorem r2At_nonneg (c : ℚ × ℚ) (p : ℕ × ℕ) : 0 ≤ r2At c p :=
  add_nonneg (sq_nonneg _) (sq_nonneg _)

/-- `listMax0` is nonnegative. -/
theorem listMax0_nonneg (l : List ℚ) : 0 ≤ listMax0 l :=
  foldl_max_init_le l 0

/-- Members are bounded by `listMax0`. -/
theorem le_listMax0 {l : List ℚ} {x : ℚ} (hx : x ∈ l) : x ≤ listMax0 l :=
  le_foldl_max l x 0 hx

/-- The squared distance of a pixel is at most `azRmax2`. -/
theorem azR2_le_azRmax2 (img : Image) (cfg : Config) {p : ℕ × ℕ}
    (hp : p ∈ pixels img.rows img.cols) : azR2 img cfg p ≤ azRmax2 img cfg :=
  le_listMax0 (List.mem_map_of_mem _ hp)

/-- The angle of a pixel is at most `radThetaMax`. -/
theorem theta_le_radThetaMax (θ : ThetaMap) (img : Image) {p : ℕ × ℕ}
    (hp : p ∈ pixels img.rows img.cols) :
    θ p.1 p.2 ≤ radThetaMax θ img :=
  le_listMax0 (List.mem_map_of_mem _ hp)

/-! ### The square-root floor and the roundings -/

/-- Characterization of `natFloorSqrt`: for `q ≥ 0`,
`n ≤ natFloorSqrt q ↔ n * n ≤ q`. -/
theorem le_natFloorSqrt_iff (q : ℚ) (hq : 0 ≤ q) (n : ℕ) :
    n ≤ natFloorSqrt q ↔ ((n : ℚ) * n ≤ q) := by
  have hfl : (0 : ℤ) ≤ ⌊q⌋ := Int.floor_nonneg.mpr hq
  set m := Int.toNat ⌊q⌋ with hm
  have hdown : ∀ j k : ℕ, j ≤ k → decide (k * k ≤ m) = true →
      decide (j * j ≤ m) = true := by
    intro j k hjk h
    simp only [decide_eq_true_eq] at *
    exact le_trans (Nat.mul_le_mul hjk hjk) h
  have hbridge : n * n ≤ m ↔ ((n : ℚ) * n ≤ q) := by
    rw [hm, Int.le_toNat hfl, Int.le_floor]
    push_cast
    exact Iff.rfl
  set L := ((List.range (m + 1)).filter fun n => decide (n * n ≤ m)).length
    with hL
  have hzero : (0 : ℕ) ∈ (List.range (m + 1)).filter fun n =>
      decide (n * n ≤ m) := by
    rw [List.mem_filter]
    exact ⟨List.mem_range.mpr (Nat.succ_pos m), by simp⟩
  have hLpos : 0 < L := List.length_pos_of_mem hzero
  have hLle : L ≤ m + 1 := by
    calc L ≤ (List.range (m + 1)).length := List.length_filter_le _ _
      _ = m + 1 := List.length_range (m + 1)
  have hfs : natFloorSqrt q = L - 1 := by rw [natFloorSqrt]
  rw [hfs, ← hbridge]
  constructor
  · intro h
    have hnL : n < L := by omega
    have hchar := (filter_range_downclosed_char _ hdown (m + 1) n
      (by omega)).mpr hnL
    simpa using hchar
  · intro h
    have hn : n ≤ m := by
      rcases Nat.eq_zero_or_pos n with h0 | h0
      · omega
      · calc n = n * 1 := (Nat.mul_one n).symm
          _ ≤ n * n := Nat.mul_le_mul_left n h0
          _ ≤ m := h
    have hnL : n < L :=
      (filter_range_downclosed_char _ hdown (m + 1) n (by omega)).mp
        (by simpa using h)
    omega

/-- `natFloorSqrt` is a lower bound for the half-even rounding. -/
theorem natFloorSqrt_le_roundHalfEvenSqrt (q : ℚ) :
    natFloorSqrt q ≤ roundHalfEvenSqrt q := by
  unfold roundHalfEvenSqrt
  dsimp only
  split_ifs <;> omega

/-- Above the successor of its half-even square-root rounding, `q` is
dominated: `q < (roundHalfEvenSqrt q + 1)^2`. -/
theorem lt_sq_succ_roundHalfEvenSqrt (q : ℚ) (hq : 0 ≤ q) :
    q < (((roundHalfEvenSqrt q : ℕ) : ℚ) + 1) ^ 2 := by
  set f := natFloorSqrt q with hf
  have hfq : ¬ ((f + 1 : ℕ) ≤ natFloorSqrt q) := by omega
  rw [le_natFloorSqrt_iff q hq (f + 1)] at hfq
  push_neg at hfq
  have hr : (f : ℚ) ≤ ((roundHalfEvenSqrt q : ℕ) : ℚ) := by
    exact_mod_cast natFloorSqrt_le_roundHalfEvenSqrt q
  have hsq : ((f : ℚ) + 1) * ((f : ℚ) + 1) ≤
      (((roundHalfEvenSqrt q : ℕ) : ℚ) + 1) * (((roundHalfEvenSqrt q : ℕ) : ℚ) + 1) := by
    have h1 : (0 : ℚ) ≤ (f : ℚ) + 1 := by positivity
    nlinarith
  calc q < ((f : ℚ) + 1) * ((f : ℚ) + 1) := by push_cast at hfq; linarith
    _ ≤ _ := hsq
    _ = (((roundHalfEvenSqrt q : ℕ) : ℚ) + 1) ^ 2 := by ring

/-- The half-even rounding of `y` exceeds `y - 1`. -/
theorem roundHalfEven_gt (y : ℚ) : y - 1 < (roundHalfEven y : ℚ) := by
  have hfl : y < (⌊y⌋ : ℚ) + 1 := Int.lt_floor_add_one y
  unfold roundHalfEven
  dsimp only
  split_ifs <;> push_cast <;> linarith

/-! ### Bin-assignment characterizations -/

/-- The azimuthal edge test is downward closed in the edge index. -/
theorem azEdge_downclosed (b r2 : ℚ) (hb : 0 < b) :
    ∀ j k : ℕ, j ≤ k → leSqrtB ((k : ℚ) * b) r2 = true →
      leSqrtB ((j : ℚ) * b) r2 = true := by
  intro j k hjk h
  simp only [leSqrtB, decide_eq_true_eq] at *
  have hjr : ((j : ℚ)) ≤ (k : ℚ) := by exact_mod_cast hjk
  rcases h with h | h
  · left
    have : (j : ℚ) * b ≤ (k : ℚ) * b :=
      mul_le_mul_of_nonneg_right hjr (le_of_lt hb)
    linarith
  · rcases le_or_lt ((j : ℚ) * b) 0 with hj0 | hj0
    · exact Or.inl hj0
    · right
      have hle : (j : ℚ) * b ≤ (k : ℚ) * b :=
        mul_le_mul_of_nonneg_right hjr (le_of_lt hb)
      calc ((j : ℚ) * b) ^ 2 ≤ ((k : ℚ) * b) ^ 2 := by nlinarith
        _ ≤ r2 := h

/-- Every pixel lands in a bin of index at least one (the lowest index
`np.digitize` returns is 1, since every distance is at least the edge 0). -/
theorem azWhichbin_pos (img : Image) (cfg : Config) (p : ℕ × ℕ) :
    0 < azWhichbin img cfg p := by
  apply List.length_pos_of_mem (a := 0)
  rw [List.mem_filter]
  refine ⟨List.mem_range.mpr (Nat.succ_pos _), ?_⟩
  simp [leSqrtB]

/-- For `binsize > 0` and a bin bound `t ≤ nbins`, a pixel's bin index is at
most `t` exactly when its squared distance is below the square of the `t`-th
edge `t * binsize`. -/
theorem azWhichbin_le_iff (img : Image) (cfg : Config)
    (hb : 0 < cfg.binsize) (p : ℕ × ℕ) (t : ℕ) (ht : t ≤ azNbins img cfg) :
    azWhichbin img cfg p ≤ t ↔
      azR2 img cfg p < ((t : ℚ) * cfg.binsize) ^ 2 := by
  have hchar := filter_range_downclosed_char
    (fun k => leSqrtB ((k : ℚ) * cfg.binsize) (azR2 img cfg p))
    (azEdge_downclosed cfg.binsize (azR2 img cfg p) hb)
    (azNbins img cfg + 1) t (by omega)
  rw [azWhichbin, ← Nat.not_lt, ← hchar]
  simp only [leSqrtB, decide_eq_true_eq, not_or, not_le]
  constructor
  · intro h
    exact h.2
  · intro h
    refine ⟨?_, h⟩
    have h0 : 0 ≤ azR2 img cfg p := r2At_nonneg _ _
    have hge : 0 ≤ (t : ℚ) * cfg.binsize :=
      mul_nonneg (Nat.cast_nonneg t) (le_of_lt hb)
    nlinarith

/-- The radial edge test is downward closed in the edge index. -/
theorem radEdge_downclosed (b v : ℚ) (hb : 0 < b) :
    ∀ j k : ℕ, j ≤ k → decide ((k : ℚ) * b ≤ v) = true →
      decide ((j : ℚ) * b ≤ v) = true := by
  intro j k hjk h
  simp only [decide_eq_true_eq] at *
  have hjr : ((j : ℚ)) ≤ (k : ℚ) := by exact_mod_cast hjk
  have : (j : ℚ) * b ≤ (k : ℚ) * b :=
    mul_le_mul_of_nonneg_right hjr (le_of_lt hb)
  linarith

/-- A pixel with a nonnegative angle lands in a bin of index at least 1. -/
theorem radWhichbin_pos (θ : ThetaMap) (img : Image) (cfg : Config)
    (p : ℕ × ℕ) (hθ : 0 ≤ θ p.1 p.2) :
    0 < radWhichbin θ img cfg p := by
  apply List.length_pos_of_mem (a := 0)
  rw [List.mem_filter]
  refine ⟨List.mem_range.mpr (Nat.succ_pos _), ?_⟩
  simpa using hθ

/-- For `binsize > 0` and `t ≤ nbins`, an angle's bin index is at most `t`
exactly when the angle is below the `t`-th edge. -/
theorem radWhichbin_le_iff (θ : ThetaMap) (img : Image) (cfg : Config)
    (hb : 0 < cfg.binsize) (p : ℕ × ℕ) (t : ℕ)
    (ht : t ≤ radNbins θ img cfg) :
    radWhichbin θ img cfg p ≤ t ↔ θ p.1 p.2 < (t : ℚ) * cfg.binsize := by
  have hchar := filter_range_downclosed_char
    (fun k => decide ((k : ℚ) * cfg.binsize ≤ θ p.1 p.2))
    (radEdge_downclosed cfg.binsize (θ p.1 p.2) hb)
    (radNbins θ img cfg + 1) t (by omega)
  rw [radWhichbin, ← Nat.not_lt, ← hchar]
  simp only [decide_eq_true_eq, not_le]

/-! ### The truncated bin count versus the full bin count -/

/-- The squared sampling frequency is dominated by the maximal squared
distance, whatever the center: the first-row corner pixels are at least half
the horizontal extent from any center abscissa. -/
theorem azSamplingFreq_sq_le_azRmax2 (img : Image) (cfg : Config)
    (hr : 1 ≤ img.rows) (hc : 1 ≤ img.cols) :
    azSamplingFreq img ^ 2 ≤ azRmax2 img cfg := by
  set cx := (azCenter img cfg).1 with hcx
  set cy := (azCenter img cfg).2 with hcy
  have hm0 : ((0, 0) : ℕ × ℕ) ∈ pixels img.rows img.cols :=
    mem_pixels_iff.mpr ⟨hr, hc⟩
  have hm1 : ((0, img.cols - 1) : ℕ × ℕ) ∈ pixels img.rows img.cols :=
    mem_pixels_iff.mpr ⟨hr, by omega⟩
  have h0 : r2At (azCenter img cfg) (0, 0) ≤ azRmax2 img cfg :=
    azR2_le_azRmax2 img cfg hm0
  have h1 : r2At (azCenter img cfg) (0, img.cols - 1) ≤ azRmax2 img cfg :=
    azR2_le_azRmax2 img cfg hm1
  rw [r2At] at h0 h1
  rw [azSamplingFreq]
  push_cast [Nat.cast_sub hc] at h0 h1 ⊢
  nlinarith [sq_nonneg (0 - cy), sq_nonneg ((img.cols : ℚ) - 1 - 2 * cx)]

/-- On a nonempty image with a positive bin size, the truncated bin count is
strictly below the full bin count (the source comment
"radial_prof.shape = bin_centers.shape" depends on this). -/
theorem azNbinsTrue_lt_azNbins (img : Image) (cfg : Config)
    (hr : 1 ≤ img.rows) (hc : 1 ≤ img.cols) (hb : 0 < cfg.binsize) :
    azNbinsTrue img cfg < azNbins img cfg := by
  set b := cfg.binsize with hbdef
  set nt := azNbinsTrue img cfg with hnt
  have hsf0 : 0 ≤ azSamplingFreq img := by
    rw [azSamplingFreq]
    have : (1 : ℚ) ≤ (img.cols : ℚ) := by exact_mod_cast hc
    linarith
  have hntb : (nt : ℚ) * b ≤ azSamplingFreq img := by
    have hfl0 : (0 : ℤ) ≤ ⌊azSamplingFreq img / b⌋ :=
      Int.floor_nonneg.mpr (div_nonneg hsf0 (le_of_lt hb))
    have hz : ((⌊azSamplingFreq img / b⌋.toNat : ℕ) : ℤ) =
        ⌊azSamplingFreq img / b⌋ := Int.toNat_of_nonneg hfl0
    have : (nt : ℚ) = (⌊azSamplingFreq img / b⌋ : ℚ) := by
      rw [hnt, azNbinsTrue, ← hbdef]
      exact_mod_cast congrArg (Int.cast : ℤ → ℚ) hz
    rw [this]
    have hfd : (⌊azSamplingFreq img / b⌋ : ℚ) ≤ azSamplingFreq img / b :=
      Int.floor_le _
    calc (⌊azSamplingFreq img / b⌋ : ℚ) * b ≤ (azSamplingFreq img / b) * b :=
          mul_le_mul_of_nonneg_right hfd (le_of_lt hb)
      _ = azSamplingFreq img := by field_simp
  have hq0 : 0 ≤ azRmax2 img cfg / b ^ 2 :=
    div_nonneg (listMax0_nonneg _) (by positivity)
  have hnt2 : (nt : ℚ) * nt ≤ azRmax2 img cfg / b ^ 2 := by
    have hsq : ((nt : ℚ) * b) ^ 2 ≤ azRmax2 img cfg := by
      have h1 : ((nt : ℚ) * b) ^ 2 ≤ azSamplingFreq img ^ 2 := by
        have h0 : 0 ≤ (nt : ℚ) * b := by positivity
        nlinarith
      exact le_trans h1 (azSamplingFreq_sq_le_azRmax2 img cfg hr hc)
    rw [le_div_iff₀ (by positivity : (0 : ℚ) < b ^ 2)]
    calc (nt : ℚ) * nt * b ^ 2 = ((nt : ℚ) * b) ^ 2 := by ring
      _ ≤ azRmax2 img cfg := hsq
  have hle : nt ≤ natFloorSqrt (azRmax2 img cfg / b ^ 2) :=
    (le_natFloorSqrt_iff _ hq0 nt).mpr hnt2
  have := natFloorSqrt_le_roundHalfEvenSqrt (azRmax2 img cfg / b ^ 2)
  rw [azNbins, ← hbdef]
  omega

/-- Every pixel's azimuthal bin index is at most `nbins`: the outermost edge
exceeds the maximal distance. -/
theorem azWhichbin_le_azNbins (img : Image) (cfg : Config)
    (hb : 0 < cfg.binsize) {p : ℕ × ℕ}
    (hp : p ∈ pixels img.rows img.cols) :
    azWhichbin img cfg p ≤ azNbins img cfg := by
  rw [azWhichbin_le_iff img cfg hb p (azNbins img cfg) (le_refl _)]
  have h1 : azR2 img cfg p ≤ azRmax2 img cfg := azR2_le_azRmax2 img cfg hp
  have h2 : azRmax2 img cfg / cfg.binsize ^ 2 <
      (((roundHalfEvenSqrt (azRmax2 img cfg / cfg.binsize ^ 2) : ℕ) : ℚ) + 1) ^ 2 :=
    lt_sq_succ_roundHalfEvenSqrt _
      (div_nonneg (listMax0_nonneg _) (by positivity))
  have hcast : ((azNbins img cfg : ℕ) : ℚ) =
      ((roundHalfEvenSqrt (azRmax2 img cfg / cfg.binsize ^ 2) : ℕ) : ℚ) + 1 := by
    rw [azNbins]
    push_cast
    ring
  rw [hcast]
  have hb2 : (0 : ℚ) < cfg.binsize ^ 2 := by positivity
  calc azR2 img cfg p ≤ azRmax2 img cfg := h1
    _ < (((roundHalfEvenSqrt (azRmax2 img cfg / cfg.binsize ^ 2) : ℕ) : ℚ) + 1) ^ 2 *
        cfg.binsize ^ 2 := by
        rw [div_lt_iff₀ hb2] at h2
        linarith
    _ = ((((roundHalfEvenSqrt (azRmax2 img cfg / cfg.binsize ^ 2) : ℕ) : ℚ) + 1) *
        cfg.binsize) ^ 2 := by ring

/-- Every pixel's angular bin index is at most `nbins` (for nonnegative
angles): the outermost edge exceeds the maximal angle. -/
theorem radWhichbin_le_radNbins (θ : ThetaMap) (img : Image) (cfg : Config)
    (hb : 0 < cfg.binsize) {p : ℕ × ℕ}
    (hp : p ∈ pixels img.rows img.cols) :
    radWhichbin θ img cfg p ≤ radNbins θ img cfg := by
  rw [radWhichbin_le_iff θ img cfg hb p (radNbins θ img cfg) (le_refl _)]
  have h1 : θ p.1 p.2 ≤ radThetaMax θ img := theta_le_radThetaMax θ img hp
  have h2 : radThetaMax θ img / cfg.binsize - 1 <
      ((roundHalfEven (radThetaMax θ img / cfg.binsize) : ℤ) : ℚ) :=
    roundHalfEven_gt _
  have h3 : ((roundHalfEven (radThetaMax θ img / cfg.binsize) : ℤ) : ℚ) ≤
      ((Int.toNat (roundHalfEven (radThetaMax θ img / cfg.binsize)) : ℕ) : ℚ) := by
    exact_mod_cast Int.self_le_toNat _
  have hcast : ((radNbins θ img cfg : ℕ) : ℚ) =
      ((Int.toNat (roundHalfEven (radThetaMax θ img / cfg.binsize)) : ℕ) : ℚ) + 1 := by
    rw [radNbins]
    push_cast
    ring
  rw [hcast]
  have : radThetaMax θ img / cfg.binsize <
      ((Int.toNat (roundHalfEven (radThetaMax θ img / cfg.binsize)) : ℕ) : ℚ) + 1 := by
    linarith
  rw [div_lt_iff₀ hb] at this
  linarith

/-! ### Claim C1 -/

set_option maxRecDepth 100000 in
/-- C1: the claim asserts that for every configuration, including stddev
mode, the profile has exactly as many values as the bin-center array.  The
code computes the standard-deviation branch over `range(1, nbins + 1)`
while `bin_centers` is truncated to `nbins_true`, contradicting the
source's own comment "radial_prof.shape = bin_centers.shape": on a 3 × 3
image with the default `binsize = 0.5` and `stddev=True, returnradii=True`,
the returned bin-center array has 2 entries while the profile has 4. -/
theorem C1_stddev_length_mismatch :
    (match azimuthal_average imgZeros3 { stddev := true, returnradii := true } with
      | Except.ok (AzOutput.radii bc p) => (bc.length, p.length)
      | _ => (0, 0)) = (2, 4) := by
  decide

/-! ### Claim C2 -/

set_option maxRecDepth 100000 in
/-- C2: the claim asserts that `interpnan=True` replaces a NaN bin (with
non-NaN neighbours) by the linear interpolation of the neighbouring bins
over their bin centers.  The code passes the unfiltered `bin_centers` and
`radial_prof` to `np.interp`, whose exact-abscissa short-circuit returns
each sample ordinate unchanged, so the NaN bins survive: on a 5 × 5
all-ones image the retained profile is `[1, nan, 1, nan]` (bins 2 and 4
are empty, bin 2 has the non-NaN neighbours 1 and 1), and the call with
`interpnan=True` returns it verbatim — identical to the `interpnan=False`
call — where the claim demands the value 1 at the NaN bin between the two
occupied bins. -/
theorem C2_interpnan_leaves_nan :
    azimuthal_average imgOnes5 { interpnan := true, returnradii := true } =
      Except.ok (AzOutput.radii [1/4, 3/4, 5/4, 7/4]
        [Val.num 1, Val.nan, Val.num 1, Val.nan]) ∧
    azimuthal_average imgOnes5 { returnradii := true } =
      Except.ok (AzOutput.radii [1/4, 3/4, 5/4, 7/4]
        [Val.num 1, Val.nan, Val.num 1, Val.nan]) := by
  constructor
  · decide
  · decide

/-! ### Claim C3 -/

/-- The only errors `azProfFinal` can raise are the two `np.interp`
errors. -/
theorem azProfFinal_error_strings (img : Image) (cfg : Config) (e : String)
    (h : azProfFinal img cfg = Except.error e) :
    e = "array of sample points is empty" ∨
      e = "fp and xp are not of the same length." := by
  rw [azProfFinal] at h
  split at h
  · rw [npInterp] at h
    split at h
    · exact Or.inl (Except.error.inj h).symm
    · split at h
      · exact Or.inr (Except.error.inj h).symm
      · split at h <;> cases h
  · cases h

/-- The only errors `radProfFinal` can raise are the two `np.interp`
errors. -/
theorem radProfFinal_error_strings (θ : ThetaMap) (img : Image)
    (cfg : Config) (e : String)
    (h : radProfFinal θ img cfg = Except.error e) :
    e = "array of sample points is empty" ∨
      e = "fp and xp are not of the same length." := by
  rw [radProfFinal] at h
  split at h
  · rw [npInterp] at h
    split at h
    · exact Or.inl (Except.error.inj h).symm
    · split at h
      · exact Or.inr (Except.error.inj h).symm
      · split at h <;> cases h
  · cases h

/-- C3: requesting the standard deviation together with an explicitly
supplied weights array makes both `azimuthal_average` and `radial_average`
return the `ValueError` "Weighted standard deviation is not defined."
before any profile value is computed (the check precedes the binning in the
source); with default weights the check never fires — the result is never
that error, and with `interpnan` left off (so that the unrelated
`np.interp` errors cannot occur either) the call succeeds outright, with
`stddev=True` or not. -/
theorem C3_weighted_stddev_error (img : Image) (cfg : Config)
    (θ : ThetaMap) (w : ℕ → ℕ → ℚ) :
    (cfg.stddev = true → cfg.weights = some w →
      azimuthal_average img cfg = Except.error weightedStdMsg ∧
      radial_average θ img cfg = Except.error weightedStdMsg) ∧
    (cfg.weights = none →
      azimuthal_average img cfg ≠ Except.error weightedStdMsg ∧
      radial_average θ img cfg ≠ Except.error weightedStdMsg) ∧
    (cfg.weights = none → cfg.interpnan = false →
      (azimuthal_average img cfg).isOk = true ∧
      (radial_average θ img cfg).isOk = true) := by
  refine ⟨?_, ?_, ?_⟩
  · intro hs hw
    have hg : cfg.stddev = true ∧ cfg.weights.isSome = true :=
      ⟨hs, by rw [hw]; rfl⟩
    constructor
    · rw [azimuthal_average, if_pos hg]
    · rw [radial_average, if_pos hg]
  · intro hw
    have hguard : ¬ (cfg.stddev = true ∧ cfg.weights.isSome = true) := by
      rintro ⟨-, hsome⟩
      rw [hw] at hsome
      cases hsome
    constructor
    · rw [azimuthal_average, if_neg hguard]
      cases hpf : azProfFinal img cfg with
      | ok v => simp [Except.map]
      | error e =>
        simp only [Except.map]
        intro hcontr
        rcases azProfFinal_error_strings img cfg e hpf with he | he <;>
          · rw [he] at hcontr
            rw [weightedStdMsg] at hcontr
            exact absurd (Except.error.inj hcontr) (by decide)
    · rw [radial_average, if_neg hguard]
      cases hpf : radProfFinal θ img cfg with
      | ok v => simp [Except.map]
      | error e =>
        simp only [Except.map]
        intro hcontr
        rcases radProfFinal_error_strings θ img cfg e hpf with he | he <;>
          · rw [he] at hcontr
            rw [weightedStdMsg] at hcontr
            exact absurd (Except.error.inj hcontr) (by decide)
  · intro hw hi
    have hguard : ¬ (cfg.stddev = true ∧ cfg.weights.isSome = true) := by
      rintro ⟨-, hsome⟩
      rw [hw] at hsome
      cases hsome
    have haz : azProfFinal img cfg = Except.ok (azProfRaw img cfg) := by
      rw [azProfFinal, hi]
      rfl
    have hrad : radProfFinal θ img cfg = Except.ok (radProfRaw θ img cfg) := by
      rw [radProfFinal, hi]
      rfl
    constructor
    · rw [azimuthal_average, if_neg hguard, haz]
      rfl
    · rw [radial_average, if_neg hguard, hrad]
      rfl

/-- C3 witness: with `stddev=True` and one-valued weights on a 3 × 3 image
the error fires; with default weights and `stddev=True` the call
succeeds. -/
theorem C3_weighted_stddev_error_witness :
    azimuthal_average imgZeros3
        { stddev := true, weights := some fun _ _ => (1 : ℚ) } =
      Except.error weightedStdMsg ∧
    (azimuthal_average imgZeros3 { stddev := true }).isOk = true :=
  ⟨((C3_weighted_stddev_error imgZeros3
      { stddev := true, weights := some fun _ _ => (1 : ℚ) } thetaDemo
      (fun _ _ => (1 : ℚ))).1 rfl rfl).1,
   ((C3_weighted_stddev_error imgZeros3 { stddev := true } thetaDemo
      (fun _ _ => (1 : ℚ))).2.2 rfl rfl).1⟩

/-! ### Claim C9 -/

/-- With `steps` set, `selectOutput` emits the step shape. -/
theorem tag_selectOutput_steps (cfg : Config) (h : cfg.steps = true)
    (n : ℕ) (nr : List ℕ) (bc : List ℚ) (prof : List Val) :
    (selectOutput cfg n nr bc prof).tag = 0 := by
  simp [selectOutput, h, AzOutput.tag]

/-- With `steps` clear and `returnradii` set, `selectOutput` emits the
radii shape. -/
theorem tag_selectOutput_radii (cfg : Config) (h1 : cfg.steps = false)
    (h2 : cfg.returnradii = true)
    (n : ℕ) (nr : List ℕ) (bc : List ℚ) (prof : List Val) :
    (selectOutput cfg n nr bc prof).tag = 1 := by
  simp [selectOutput, h1, h2, AzOutput.tag]

/-- With `steps` and `returnradii` clear and `return_nr` set,
`selectOutput` emits the counts shape. -/
theorem tag_selectOutput_nr (cfg : Config) (h1 : cfg.steps = false)
    (h2 : cfg.returnradii = false) (h3 : cfg.return_nr = true)
    (n : ℕ) (nr : List ℕ) (bc : List ℚ) (prof : List Val) :
    (selectOutput cfg n nr bc prof).tag = 2 := by
  simp [selectOutput, h1, h2, h3, AzOutput.tag]

/-- Mapping the shape tag over a profile-to-output map whose tag is
constant. -/
theorem map_tag_const (e : Except String (List Val)) (cfg : Config)
    (n : ℕ) (nr : List ℕ) (bc : List ℚ) (t : ℕ)
    (h : ∀ prof, (selectOutput cfg n nr bc prof).tag = t) :
    (e.map fun prof => selectOutput cfg n nr bc prof).map AzOutput.tag =
      (e.map fun prof => selectOutput cfg n nr bc prof).map fun _ => t := by
  cases e <;> simp [Except.map, h]

/-- C9: the output shape of `azimuthal_average` follows the fixed
precedence `steps` over `returnradii` over `return_nr` (and that of
`radial_average` the precedence `steps` over `return_az` over
`return_naz`): when a higher-precedence flag is set the lower-precedence
flags are ignored (the result does not depend on them), and the shape tag
is the one of the winning flag. -/
theorem C9_output_flag_precedence (img : Image) (cfg : Config)
    (θ : ThetaMap) (x y : Bool) :
    (azimuthal_average img
        { cfg with steps := true, returnradii := x, return_nr := y } =
      azimuthal_average img
        { cfg with steps := true, returnradii := false, return_nr := false }) ∧
    ((azimuthal_average img
        { cfg with steps := true, returnradii := x, return_nr := y }).map
          AzOutput.tag =
      (azimuthal_average img
        { cfg with steps := true, returnradii := x, return_nr := y }).map
          fun _ => 0) ∧
    (azimuthal_average img
        { cfg with steps := false, returnradii := true, return_nr := y } =
      azimuthal_average img
        { cfg with steps := false, returnradii := true, return_nr := false }) ∧
    ((azimuthal_average img
        { cfg with steps := false, returnradii := true, return_nr := y }).map
          AzOutput.tag =
      (azimuthal_average img
        { cfg with steps := false, returnradii := true, return_nr := y }).map
          fun _ => 1) ∧
    ((azimuthal_average img
        { cfg with steps := false, returnradii := false, return_nr := true }).map
          AzOutput.tag =
      (azimuthal_average img
        { cfg with steps := false, returnradii := false, return_nr := true }).map
          fun _ => 2) ∧
    (radial_average θ img
        { cfg with steps := true, returnradii := x, return_nr := y } =
      radial_average θ img
        { cfg with steps := true, returnradii := false, return_nr := false }) ∧
    ((radial_average θ img
        { cfg with steps := true, returnradii := x, return_nr := y }).map
          AzOutput.tag =
      (radial_average θ img
        { cfg with steps := true, returnradii := x, return_nr := y }).map
          fun _ => 0) ∧
    (radial_average θ img
        { cfg with steps := false, returnradii := true, return_nr := y } =
      radial_average θ img
        { cfg with steps := false, returnradii := true, return_nr := false }) ∧
    ((radial_average θ img
        { cfg with steps := false, returnradii := true, return_nr := y }).map
          AzOutput.tag =
      (radial_average θ img
        { cfg with steps := false, returnradii := true, return_nr := y }).map
          fun _ => 1) ∧
    ((radial_average θ img
        { cfg with steps := false, returnradii := false, return_nr := true }).map
          AzOutput.tag =
      (radial_average θ img
        { cfg with steps := false, returnradii := false, return_nr := true }).map
          fun _ => 2) := by
  refine ⟨rfl, ?_, rfl, ?_, ?_, rfl, ?_, rfl, ?_, ?_⟩ <;>
    · first
      | (rw [azimuthal_average]
         split
         · rfl
         · exact map_tag_const _ _ _ _ _ _ fun prof => by
             first
             | exact tag_selectOutput_steps _ rfl _ _ _ _
             | exact tag_selectOutput_radii _ rfl rfl _ _ _ _
             | exact tag_selectOutput_nr _ rfl rfl rfl _ _ _ _)
      | (rw [radial_average]
         split
         · rfl
         · exact map_tag_const _ _ _ _ _ _ fun prof => by
             first
             | exact tag_selectOutput_steps _ rfl _ _ _ _
             | exact tag_selectOutput_radii _ rfl rfl _ _ _ _
             | exact tag_selectOutput_nr _ rfl rfl rfl _ _ _ _)

/-! ### Claim C6 -/

/-- A successful `mapMExcept` run returns one result per element. -/
theorem mapMExcept_ok_length {α β : Type} (f : α → Except String β) :
    ∀ (l : List α) (r : List β), mapMExcept f l = Except.ok r →
      r.length = l.length := by
  intro l
  induction l with
  | nil =>
    intro r h
    cases h
    rfl
  | cons a as ih =>
    intro r h
    rw [mapMExcept] at h
    cases hf : f a with
    | error e =>
      rw [hf] at h
      cases h
    | ok b =>
      rw [hf] at h
      cases hr : mapMExcept f as with
      | error e =>
        rw [hr] at h
        cases h
      | ok bs =>
        rw [hr] at h
        cases h
        simp [List.length_cons, ih bs hr]

/-- `np.linspace` returns as many points as requested. -/
theorem linspaceQ_length (a b : ℚ) (n : ℕ) : (linspaceQ a b n).length = n := by
  rw [linspaceQ]
  split
  · simp +contextual [*]
  · split
    · simp [*]
    · simp

/-- Zipping a list with its own tail yields one pair per consecutive
boundary pair. -/
theorem zip_tail_length {α : Type} (l : List α) :
    (l.zip l.tail).length = l.length - 1 := by
  rw [List.length_zip, List.length_tail]
  omega

set_option maxRecDepth 100000 in
/-- C6 counterexample: the claim says an integer `azbins = N` with
`symmetric` unset divides `[0, 360)` into `N` equal sectors and returns
`N` profiles.  With `azbins = 3` on a 3 × 3 image the code returns the
boundary array `np.linspace(0, 360, 3) = [0, 180, 360]` — 3 boundary
points, hence 2 sectors of 180 degrees — and a list of 2 profiles, not
3. -/
theorem C6_intN_sector_count_counterexample :
    (match azimuthal_average_bins thetaDemo imgZeros3 (BinArg.intN 3) none
        none {} with
      | Except.ok (bs, _, l) => (bs, l.length)
      | _ => ([], 99)) = ([0, 180, 360], 2) ∧ (2 : ℕ) ≠ 3 := by
  constructor
  · decide
  · decide

/-- C6 (amended): for an integer `azbins = N` (`N ≥ 2`, `symmetric`
unset), `azimuthal_average_bins` spreads `N` equally spaced boundary
points over `[0, 360]` and returns one radial profile per consecutive
boundary pair — a list of `N - 1` profiles, not `N`; a pixel contributes
to a sector only when its angle lies strictly between the sector's
mod-360-reduced boundaries. -/
theorem C6_intN_sector_count (θ : ThetaMap) (img : Image) (cfg : Config)
    (n : ℕ) (_hn : 2 ≤ n)
    (out : List ℚ × List ℚ × List (List Val))
    (h : azimuthal_average_bins θ img (BinArg.intN n) none none cfg =
      Except.ok out) :
    out.1 = linspaceQ 0 360 n ∧ out.2.2.length = n - 1 := by
  rw [azimuthal_average_bins] at h
  simp only [Option.getD_none] at h
  split at h
  · cases h
  · rename_i results hm
    split at h
    · cases h
    · rename_i last hl
      cases h
      have hres : results.length =
          ((azbinsResolved θ (BinArg.intN n) none).2.zip
            (azbinsResolved θ (BinArg.intN n) none).2.tail).length :=
        mapMExcept_ok_length _ _ _ hm
      have hbs : (azbinsResolved θ (BinArg.intN n) none).2 =
          linspaceQ 0 360 n := rfl
      refine ⟨rfl, ?_⟩
      simp only [List.length_map]
      rw [hres, zip_tail_length, hbs, linspaceQ_length]

set_option maxRecDepth 100000 in
/-- C6 witness: the amended statement at `N = 3` on a 3 × 3 image. -/
theorem C6_intN_sector_count_witness :
    (azimuthal_average_bins thetaDemo imgZeros3 (BinArg.intN 3) none none
        {} = Except.ok ([0, 180, 360], [1/4, 3/4],
          [[Val.num 0, Val.nan], [Val.nan, Val.nan]])) ∧
    ([0, 180, 360] = linspaceQ (0 : ℚ) 360 3 ∧
      ([[Val.num 0, Val.nan], [Val.nan, Val.nan]] : List (List Val)).length =
        3 - 1) := by
  have hcall : azimuthal_average_bins thetaDemo imgZeros3 (BinArg.intN 3)
      none none {} = Except.ok ([0, 180, 360], [1/4, 3/4],
        [[Val.num 0, Val.nan], [Val.nan, Val.nan]]) := by decide
  exact ⟨hcall,
    C6_intN_sector_count thetaDemo imgZeros3 {} 3 (by decide) _ hcall⟩

/-! ### Claim C4 -/

/-- A successful `np.interp` returns one value per query point. -/
theorem npInterp_ok_length (xq xp : List ℚ) (fp : List Val)
    (l r : Option ℚ) (out : List Val)
    (h : npInterp xq xp fp l r = Except.ok out) : out.length = xq.length := by
  rw [npInterp] at h
  split at h
  · cases h
  · split at h
    · cases h
    · split at h <;>
        · cases h
          exact List.length_map _ _

/-- In the weighted-mean and sum modes the raw profile has exactly
`nbins_true` entries. -/
theorem azProfRaw_length_mean (img : Image) (cfg : Config)
    (hs : cfg.stddev = false) :
    (azProfRaw img cfg).length = azNbinsTrue img cfg := by
  rw [azProfRaw]
  simp only [hs, Bool.false_eq_true, if_false]
  split <;> simp

/-- The truncated bin-center array has `nbins_true` entries on a nonempty
image with a positive bin size. -/
theorem azBinCenters_length (img : Image) (cfg : Config)
    (hr : 1 ≤ img.rows) (hc : 1 ≤ img.cols) (hb : 0 < cfg.binsize) :
    (azBinCenters img cfg).length = azNbinsTrue img cfg := by
  rw [azBinCenters, List.length_take, binCentersFull, List.length_map,
    List.length_range]
  have := azNbinsTrue_lt_azNbins img cfg hr hc hb
  omega

/-- With `steps` clear, the profile component of the selected output is the
profile itself. -/
theorem profile_selectOutput (cfg : Config) (h : cfg.steps = false)
    (n : ℕ) (nr : List ℕ) (bc : List ℚ) (prof : List Val) :
    (selectOutput cfg n nr bc prof).profile = prof := by
  rw [selectOutput]
  simp only [h, Bool.false_eq_true, if_false]
  split
  · rfl
  · split
    · rfl
    · rfl

/-- The final profile of a successful mean- or sum-mode call has
`nbins_true` entries. -/
theorem azProfFinal_ok_length (img : Image) (cfg : Config)
    (prof : List Val)
    (hr : 1 ≤ img.rows) (hc : 1 ≤ img.cols) (hb : 0 < cfg.binsize)
    (hs : cfg.stddev = false)
    (h : azProfFinal img cfg = Except.ok prof) :
    prof.length = azNbinsTrue img cfg := by
  rw [azProfFinal] at h
  split at h
  · rw [npInterp_ok_length _ _ _ _ _ _ h]
    exact azBinCenters_length img cfg hr hc hb
  · cases h
    exact azProfRaw_length_mean img cfg hs

/-- C4: in the weighted-mean and sum aggregation modes (`stddev` off) a
successful `azimuthal_average` call returns a profile with exactly
`int(sampling_freq / binsize)` entries, where
`sampling_freq = (x.max() - x.min()) / 2 = (cols - 1) / 2`; the `steps`
shape is excluded since it doubles the samples. -/
theorem C4_profile_truncation (img : Image) (cfg : Config) (o : AzOutput)
    (hr : 1 ≤ img.rows) (hc : 1 ≤ img.cols) (hb : 0 < cfg.binsize)
    (hs : cfg.stddev = false) (hst : cfg.steps = false)
    (h : azimuthal_average img cfg = Except.ok o) :
    o.profile.length = Int.toNat ⌊(((img.cols : ℚ) - 1) / 2) / cfg.binsize⌋ := by
  rw [azimuthal_average] at h
  rw [if_neg (by rw [hs]; rintro ⟨hcontr, -⟩; cases hcontr)] at h
  cases hpf : azProfFinal img cfg with
  | error e =>
    rw [hpf] at h
    cases h
  | ok prof =>
    rw [hpf] at h
    cases h
    rw [profile_selectOutput cfg hst]
    exact azProfFinal_ok_length img cfg prof hr hc hb hs hpf

set_option maxRecDepth 100000 in
/-- C4 witness: on the 5 × 5 all-ones image with the default bin size the
profile of a successful mean-mode call has
`int(((5 - 1) / 2) / 0.5) = 4` entries. -/
theorem C4_profile_truncation_witness :
    azimuthal_average imgOnes5 { returnradii := true } =
      Except.ok (AzOutput.radii [1/4, 3/4, 5/4, 7/4]
        [Val.num 1, Val.nan, Val.num 1, Val.nan]) ∧
    (AzOutput.radii [1/4, 3/4, 5/4, 7/4]
        [Val.num 1, Val.nan, Val.num 1, Val.nan]).profile.length =
      Int.toNat ⌊(((imgOnes5.cols : ℚ) - 1) / 2) /
        (Config.binsize { returnradii := true })⌋ := by
  have hcall : azimuthal_average imgOnes5 { returnradii := true } =
      Except.ok (AzOutput.radii [1/4, 3/4, 5/4, 7/4]
        [Val.num 1, Val.nan, Val.num 1, Val.nan]) := by decide
  exact ⟨hcall, C4_profile_truncation imgOnes5 { returnradii := true } _
    (by decide) (by decide) (by decide) rfl rfl hcall⟩

/-! ### Claim C8 -/

/-- The weighted mean of an empty bin is `0 / 0`, i.e. NaN. -/
theorem meanAgg_nil (img : Image) (w : (ℕ × ℕ) → ℚ) :
    meanAgg img w [] = Val.nan := by
  simp [meanAgg, fdiv]

/-- The `k`-th entry of the mean-mode raw profile is the weighted mean of
the pixels selected for bin `k + 1`. -/
theorem azProfRaw_getElem_mean (img : Image) (cfg : Config)
    (hs : cfg.stddev = false) (hsum : cfg.sum_bin = false)
    (k : ℕ) (hk : k < azNbinsTrue img cfg) :
    (azProfRaw img cfg)[k]? = some (meanAgg img (weightFn cfg)
      (selectBin (pixels img.rows img.cols) (maskFn cfg)
        (azWhichbin img cfg) (k + 1))) := by
  rw [azProfRaw]
  simp only [hs, hsum, Bool.false_eq_true, if_false]
  rw [List.getElem?_map, List.getElem?_range hk]
  rfl

/-- The `k`-th entry of the mean-mode raw azimuthal profile. -/
theorem radProfRaw_getElem_mean (θ : ThetaMap) (img : Image) (cfg : Config)
    (hs : cfg.stddev = false)
    (k : ℕ) (hk : k < radNbins θ img cfg) :
    (radProfRaw θ img cfg)[k]? = some (meanAgg img (weightFn cfg)
      (selectBin (pixels img.rows img.cols) (maskFn cfg)
        (radWhichbin θ img cfg) (k + 1))) := by
  rw [radProfRaw]
  simp only [hs, Bool.false_eq_true, if_false]
  rw [List.getElem?_map, List.getElem?_range hk]
  rfl

/-- Two masks that agree on the pixels of bin `b` select the same pixels
for bin `b`. -/
theorem selectBin_congr (ps : List (ℕ × ℕ)) (m m' : (ℕ × ℕ) → Bool)
    (wb : (ℕ × ℕ) → ℕ) (b : ℕ)
    (hag : ∀ p ∈ ps, wb p = b → m p = m' p) :
    selectBin ps m wb b = selectBin ps m' wb b := by
  rw [selectBin, selectBin]
  apply List.filter_congr
  intro p hp
  by_cases hwb : wb p = b
  · rw [hag p hp hwb]
  · have : (wb p == b) = false := by
      simp [hwb]
    rw [this, Bool.and_false, Bool.and_false]

/-- C8: in the default weighted-mean mode (no stddev, no sum, no step or
interpolation transforms), a retained bin with no contributing pixels
(after masking) yields NaN at its profile position rather than an error —
in both `azimuthal_average` and `radial_average` — and the value of any
bin depends on the mask only through that bin's own pixels, so empty bins
elsewhere leave it unchanged. -/
theorem C8_empty_bin_nan (img : Image) (cfg : Config) (θ : ThetaMap)
    (hs : cfg.stddev = false) (hsum : cfg.sum_bin = false)
    (hi : cfg.interpnan = false) (hst : cfg.steps = false) :
    (∀ b o, 1 ≤ b → b ≤ azNbinsTrue img cfg →
      selectBin (pixels img.rows img.cols) (maskFn cfg)
        (azWhichbin img cfg) b = [] →
      azimuthal_average img cfg = Except.ok o →
      o.profile[b - 1]? = some Val.nan) ∧
    (∀ b o, 1 ≤ b → b ≤ radNbins θ img cfg →
      selectBin (pixels img.rows img.cols) (maskFn cfg)
        (radWhichbin θ img cfg) b = [] →
      radial_average θ img cfg = Except.ok o →
      o.profile[b - 1]? = some Val.nan) ∧
    (∀ (m m' : ℕ → ℕ → Bool) b' o o', cfg.mask = some m → 1 ≤ b' →
      (∀ p ∈ pixels img.rows img.cols,
        azWhichbin img cfg p = b' → m p.1 p.2 = m' p.1 p.2) →
      azimuthal_average img cfg = Except.ok o →
      azimuthal_average img { cfg with mask := some m' } = Except.ok o' →
      o.profile[b' - 1]? = o'.profile[b' - 1]?) := by
  have hguard : ¬ (cfg.stddev = true ∧ cfg.weights.isSome = true) := by
    rw [hs]
    rintro ⟨hcontr, -⟩
    cases hcontr
  have hokAz : ∀ o, azimuthal_average img cfg = Except.ok o →
      o.profile = azProfRaw img cfg := by
    intro o h
    rw [azimuthal_average, if_neg hguard, azProfFinal, hi] at h
    simp only [Bool.false_eq_true, if_false, Except.map] at h
    cases h
    exact profile_selectOutput cfg hst _ _ _ _
  refine ⟨?_, ?_, ?_⟩
  · intro b o hb1 hb2 hempty h
    rw [hokAz o h]
    have hk : b - 1 < azNbinsTrue img cfg := by omega
    rw [azProfRaw_getElem_mean img cfg hs hsum (b - 1) hk]
    have hb' : b - 1 + 1 = b := by omega
    rw [hb', hempty, meanAgg_nil]
  · intro b o hb1 hb2 hempty h
    rw [radial_average, if_neg hguard, radProfFinal, hi] at h
    simp only [Bool.false_eq_true, if_false, Except.map] at h
    cases h
    rw [profile_selectOutput cfg hst]
    have hk : b - 1 < radNbins θ img cfg := by omega
    rw [radProfRaw_getElem_mean θ img cfg hs (b - 1) hk]
    have hb' : b - 1 + 1 = b := by omega
    rw [hb', hempty, meanAgg_nil]
  · intro m m' b' o o' hm hb1 hag h h'
    rw [hokAz o h]
    have hokAz' : o'.profile = azProfRaw img { cfg with mask := some m' } := by
      rw [azimuthal_average, if_neg hguard, azProfFinal] at h'
      simp only [hi, Bool.false_eq_true, if_false, Except.map] at h'
      cases h'
      exact profile_selectOutput _ hst _ _ _ _
    rw [hokAz']
    by_cases hk : b' - 1 < azNbinsTrue img cfg
    · rw [azProfRaw_getElem_mean img cfg hs hsum (b' - 1) hk,
        azProfRaw_getElem_mean img { cfg with mask := some m' } hs hsum
          (b' - 1) hk]
      have hb'' : b' - 1 + 1 = b' := by omega
      rw [hb'']
      have hsel : selectBin (pixels img.rows img.cols) (maskFn cfg)
          (azWhichbin img cfg) b' =
          selectBin (pixels img.rows img.cols)
            (maskFn { cfg with mask := some m' })
            (azWhichbin img { cfg with mask := some m' }) b' := by
        have : maskFn { cfg with mask := some m' } =
            fun p : ℕ × ℕ => m' p.1 p.2 := rfl
        rw [this]
        have hmf : maskFn cfg = fun p : ℕ × ℕ => m p.1 p.2 := by
          funext p
          rw [maskFn, hm]
          rfl
        rw [hmf]
        exact selectBin_congr _ _ _ _ _ fun p hp hwb => hag p hp hwb
      rw [hsel]
      rfl
    · have hnt : azNbinsTrue img { cfg with mask := some m' } =
          azNbinsTrue img cfg := rfl
      rw [List.getElem?_eq_none, List.getElem?_eq_none]
      · rw [azProfRaw_length_mean img { cfg with mask := some m' } hs, hnt]
        omega
      · rw [azProfRaw_length_mean img cfg hs]
        omega

set_option maxRecDepth 100000 in
/-- C8 witness: on the 5 × 5 all-ones image with the default
configuration, bin 2 is empty and the returned profile holds NaN at its
position. -/
theorem C8_empty_bin_nan_witness :
    azimuthal_average imgOnes5 {} =
      Except.ok (AzOutput.prof [Val.num 1, Val.nan, Val.num 1, Val.nan]) ∧
    (AzOutput.prof
        [Val.num 1, Val.nan, Val.num 1, Val.nan]).profile[2 - 1]? =
      some Val.nan := by
  have hcall : azimuthal_average imgOnes5 {} =
      Except.ok (AzOutput.prof [Val.num 1, Val.nan, Val.num 1, Val.nan]) := by
    decide
  refine ⟨hcall, ?_⟩
  exact (C8_empty_bin_nan imgOnes5 {} thetaDemo rfl rfl rfl rfl).1 2 _
    (by decide) (by decide) (by decide) hcall

/-! ### Claim C5 -/

/-- The number of pixels in a list of `rows` rows of `cols` pixels. -/
theorem pixels_length (rows cols : ℕ) :
    (pixels rows cols).length = rows * cols := by
  rw [pixels, List.length_flatMap]
  induction rows with
  | zero => simp
  | succ n ih =>
    rw [List.range_succ, List.map_append, List.sum_append]
    simp [ih, Nat.succ_mul]

/-- The sum of all of `bincountTail` counts every element in a positive
bin. -/
theorem bincountTail_sum {α : Type} (ps : List α) (f : α → ℕ) :
    (bincountTail ps f).sum = ps.countP fun p => decide (1 ≤ f p) := by
  have hub : ∀ p ∈ ps, f p ≤ (ps.map f).foldl max 0 := by
    intro p hp
    exact le_foldl_max (ps.map f) (f p) 0 (List.mem_map_of_mem f hp)
  have hlen : (bincountTail ps f).length = (ps.map f).foldl max 0 := by
    rw [bincountTail, List.length_map, List.length_range]
  have htake : (bincountTail ps f).take ((ps.map f).foldl max 0) =
      bincountTail ps f := by
    rw [List.take_of_length_le]
    omega
  rw [← htake, bincountTail_take_sum]
  apply List.countP_congr
  intro p hp
  have := hub p hp
  constructor <;> intro h <;> simp only [decide_eq_true_eq] at * <;> omega

/-- `selectOutput` produces the counts shape only from its own `nr`
argument. -/
theorem selectOutput_nr_inv (cfg : Config) (n : ℕ) (nr nrl : List ℕ)
    (bc bc' : List ℚ) (prof prof' : List Val)
    (h : selectOutput cfg n nr bc prof = AzOutput.nr nrl bc' prof') :
    nrl = nr ∧ prof' = prof := by
  rw [selectOutput] at h
  split at h
  · exact AzOutput.noConfusion h
  · split at h
    · exact AzOutput.noConfusion h
    · split at h
      · injection h with h1 h2 h3
        exact ⟨h1.symm, h3.symm⟩
      · exact AzOutput.noConfusion h

set_option maxRecDepth 100000 in
/-- C5 counterexample: the claim says the per-bin counts `nr` sum, over
the retained bins, to the number of pixels in the retained range that
pass the mask.  On a 3 × 3 image (retained bins 1 and 2 cover distances
`[0, 1)`; only the center pixel is within them) with a mask excluding the
center pixel, the first two `nr` entries sum to 1 while the mask-passing
in-range pixel count is 0: `np.bincount(whichbin)` never consults the
mask. -/
theorem C5_nr_ignores_mask_counterexample :
    (match azimuthal_average imgZeros3
        { return_nr := true,
          mask := some fun i j => !(i == 1 && j == 1) } with
      | Except.ok (AzOutput.nr nrl _ _) => (nrl.take 2).sum
      | _ => 99) = 1 ∧
    (pixels 3 3).countP (fun p => (!(p.1 == 1 && p.2 == 1)) &&
      ltSqrtB ((2 : ℚ) * (1 / 2))
        (azR2 imgZeros3
          { return_nr := true,
            mask := some fun i j => !(i == 1 && j == 1) } p)) = 0 ∧
    (1 : ℕ) ≠ 0 := by
  refine ⟨by decide, by decide, by decide⟩

/-- C5 (amended): the per-bin counts are computed before and without the
mask.  For `azimuthal_average` with `return_nr=True` the first
`nbins_true` entries of `nr` sum to the number of pixels whose distance
from the center lies in the retained range `[0, nbins_true * binsize)` —
regardless of the mask; for `radial_average` with `return_naz=True` (all
bins retained, nonnegative angle map) the whole of `nr` sums to the
number of pixels whose angle lies in `[0, nbins * binsize)`, which is
every pixel of the image. -/
theorem C5_nr_sums_unmasked (img : Image) (cfg : Config) (θ : ThetaMap)
    (hr : 1 ≤ img.rows) (hc : 1 ≤ img.cols) (hb : 0 < cfg.binsize) :
    (∀ nrl bc prof,
      azimuthal_average img cfg = Except.ok (AzOutput.nr nrl bc prof) →
      (nrl.take (azNbinsTrue img cfg)).sum =
        (pixels img.rows img.cols).countP fun p =>
          ltSqrtB ((azNbinsTrue img cfg : ℚ) * cfg.binsize)
            (azR2 img cfg p)) ∧
    ((∀ i j, 0 ≤ θ i j) → ∀ nrl bc prof,
      radial_average θ img cfg = Except.ok (AzOutput.nr nrl bc prof) →
      nrl.sum = (pixels img.rows img.cols).countP (fun p =>
          decide (0 ≤ θ p.1 p.2 ∧
            θ p.1 p.2 < (radNbins θ img cfg : ℚ) * cfg.binsize)) ∧
        nrl.sum = img.rows * img.cols) := by
  constructor
  · intro nrl bc prof h
    rw [azimuthal_average] at h
    split at h
    · cases h
    · cases hpf : azProfFinal img cfg with
      | error e =>
        rw [hpf] at h
        cases h
      | ok pf =>
        rw [hpf] at h
        simp only [Except.map] at h
        have hnr : nrl = azNr img cfg :=
          (selectOutput_nr_inv cfg _ _ _ _ _ _ _ (Except.ok.inj h)).1
        rw [hnr, azNr, bincountTail_take_sum]
        apply List.countP_congr
        intro p hp
        have hpos := azWhichbin_pos img cfg p
        have hnt := azNbinsTrue_lt_azNbins img cfg hr hc hb
        have hiff := azWhichbin_le_iff img cfg hb p (azNbinsTrue img cfg)
          (by omega)
        have h0 : 0 ≤ azR2 img cfg p := r2At_nonneg _ _
        have hge : 0 ≤ (azNbinsTrue img cfg : ℚ) * cfg.binsize :=
          mul_nonneg (Nat.cast_nonneg _) (le_of_lt hb)
        constructor
        · intro hlhs
          simp only [decide_eq_true_eq] at hlhs
          have hr2 := hiff.mp hlhs.2
          simp only [ltSqrtB, decide_eq_true_eq]
          refine ⟨?_, hr2⟩
          nlinarith
        · intro hrhs
          simp only [ltSqrtB, decide_eq_true_eq] at hrhs
          simp only [decide_eq_true_eq]
          exact ⟨hpos, hiff.mpr hrhs.2⟩
  · intro hθ nrl bc prof h
    rw [radial_average] at h
    split at h
    · cases h
    · cases hpf : radProfFinal θ img cfg with
      | error e =>
        rw [hpf] at h
        cases h
      | ok pf =>
        rw [hpf] at h
        simp only [Except.map] at h
        have hnr : nrl = radNr θ img cfg :=
          (selectOutput_nr_inv cfg _ _ _ _ _ _ _ (Except.ok.inj h)).1
        have hsum : nrl.sum = (pixels img.rows img.cols).countP (fun p =>
            decide (0 ≤ θ p.1 p.2 ∧
              θ p.1 p.2 < (radNbins θ img cfg : ℚ) * cfg.binsize)) := by
          rw [hnr, radNr, bincountTail_sum]
          apply List.countP_congr
          intro p hp
          have hpos := radWhichbin_pos θ img cfg p (hθ p.1 p.2)
          have hub := radWhichbin_le_radNbins θ img cfg hb hp
          have hlt := (radWhichbin_le_iff θ img cfg hb p
            (radNbins θ img cfg) (le_refl _)).mp hub
          constructor
          · intro _
            simp only [decide_eq_true_eq]
            exact ⟨hθ p.1 p.2, hlt⟩
          · intro _
            simp only [decide_eq_true_eq]
            omega
        refine ⟨hsum, ?_⟩
        rw [hsum, ← pixels_length img.rows img.cols]
        rw [List.countP_eq_length]
        intro p hp
        simp only [decide_eq_true_eq]
        exact ⟨hθ p.1 p.2,
          (radWhichbin_le_iff θ img cfg hb p (radNbins θ img cfg)
            (le_refl _)).mp (radWhichbin_le_radNbins θ img cfg hb hp)⟩

set_option maxRecDepth 100000 in
/-- C5 witness: on the 3 × 3 image with the center pixel masked out, the
first two `nr` entries sum to 1, which is the unmasked count of pixels at
distance below `2 * 0.5 = 1` (just the center pixel). -/
theorem C5_nr_sums_unmasked_witness :
    azimuthal_average imgZeros3
        { return_nr := true,
          mask := some fun i j => !(i == 1 && j == 1) } =
      Except.ok (AzOutput.nr [1, 0, 8] [1/4, 3/4] [Val.nan, Val.nan]) ∧
    (([1, 0, 8] : List ℕ).take
        (azNbinsTrue imgZeros3
          { return_nr := true,
            mask := some fun i j => !(i == 1 && j == 1) })).sum =
      (pixels imgZeros3.rows imgZeros3.cols).countP fun p =>
        ltSqrtB ((azNbinsTrue imgZeros3
            { return_nr := true,
              mask := some fun i j => !(i == 1 && j == 1) } : ℚ) *
          (Config.binsize
            { return_nr := true,
              mask := some fun i j => !(i == 1 && j == 1) }))
          (azR2 imgZeros3
            { return_nr := true,
              mask := some fun i j => !(i == 1 && j == 1) } p) := by
  have hcall : azimuthal_average imgZeros3
      { return_nr := true,
        mask := some fun i j => !(i == 1 && j == 1) } =
      Except.ok (AzOutput.nr [1, 0, 8] [1/4, 3/4] [Val.nan, Val.nan]) := by
    decide
  exact ⟨hcall, (C5_nr_sums_unmasked imgZeros3
    { return_nr := true, mask := some fun i j => !(i == 1 && j == 1) }
    thetaDemo (by decide) (by decide) (by decide)).1 _ _ _ hcall⟩

/-! ### Claim C7 -/

/-- Flattened pairs have twice as many entries. -/
theorem pairsFlat_length {α : Type} (l : List (α × α)) :
    (pairsFlat l).length = 2 * l.length := by
  induction l with
  | nil => rfl
  | cons p t ih =>
    rw [pairsFlat] at *
    simp only [List.flatMap_cons, List.length_append, List.length_cons,
      List.length_nil, ih]
    omega

/-- Even positions of flattened pairs: the first components. -/
theorem pairsFlat_getElem_even {α : Type} (l : List (α × α)) :
    ∀ k : ℕ, (pairsFlat l)[2 * k]? = l[k]?.map Prod.fst := by
  induction l with
  | nil => intro k; rfl
  | cons p t ih =>
    have hcons : pairsFlat (p :: t) = p.1 :: p.2 :: pairsFlat t := by
      simp [pairsFlat]
    intro k
    cases k with
    | zero => simp [hcons]
    | succ m =>
      have h2 : 2 * (m + 1) = 2 * m + 1 + 1 := by omega
      rw [hcons, h2, List.getElem?_cons_succ, List.getElem?_cons_succ,
        List.getElem?_cons_succ]
      exact ih m

/-- Odd positions of flattened pairs: the second components. -/
theorem pairsFlat_getElem_odd {α : Type} (l : List (α × α)) :
    ∀ k : ℕ, (pairsFlat l)[2 * k + 1]? = l[k]?.map Prod.snd := by
  induction l with
  | nil => intro k; rfl
  | cons p t ih =>
    have hcons : pairsFlat (p :: t) = p.1 :: p.2 :: pairsFlat t := by
      simp [pairsFlat]
    intro k
    cases k with
    | zero => simp [hcons]
    | succ m =>
      have h2 : 2 * (m + 1) + 1 = 2 * m + 1 + 1 + 1 := by omega
      rw [hcons, h2, List.getElem?_cons_succ, List.getElem?_cons_succ,
        List.getElem?_cons_succ]
      exact ih m

/-- Zipping a list with itself duplicates each entry into a pair. -/
theorem zip_self {α : Type} (l : List α) :
    l.zip l = l.map fun v => (v, v) := by
  induction l with
  | nil => rfl
  | cons a t ih =>
    rw [List.zip_cons_cons, List.map_cons, ih]

/-- `stepsY` length. -/
theorem stepsY_length (l : List Val) : (stepsY l).length = 2 * l.length := by
  rw [stepsY, pairsFlat_length, List.length_zip]
  omega

/-- `stepsY` duplicates entry `k` at positions `2k` and `2k + 1`. -/
theorem stepsY_getElem (l : List Val) (k : ℕ) :
    (stepsY l)[2 * k]? = l[k]? ∧ (stepsY l)[2 * k + 1]? = l[k]? := by
  rw [stepsY, zip_self]
  constructor
  · rw [pairsFlat_getElem_even, List.getElem?_map]
    cases l[k]? <;> rfl
  · rw [pairsFlat_getElem_odd, List.getElem?_map]
    cases l[k]? <;> rfl

/-- `stepsX` length. -/
theorem stepsX_length (b : ℚ) (n : ℕ) : (stepsX b n).length = 2 * n := by
  rw [stepsX, pairsFlat_length, List.length_map, List.length_range]

/-- `stepsX` holds bin `k`'s left edge at position `2k` and its right edge
at `2k + 1`. -/
theorem stepsX_getElem (b : ℚ) (n : ℕ) (k : ℕ) (hk : k < n) :
    (stepsX b n)[2 * k]? = some ((k : ℚ) * b) ∧
      (stepsX b n)[2 * k + 1]? = some (((k : ℚ) + 1) * b) := by
  rw [stepsX]
  constructor
  · rw [pairsFlat_getElem_even, List.getElem?_map, List.getElem?_range hk]
    rfl
  · rw [pairsFlat_getElem_odd, List.getElem?_map, List.getElem?_range hk]
    rfl

/-- The raw azimuthal profile always has `nbins` entries. -/
theorem radProfRaw_length (θ : ThetaMap) (img : Image) (cfg : Config) :
    (radProfRaw θ img cfg).length = radNbins θ img cfg := by
  rw [radProfRaw]
  split <;> simp

/-- The final azimuthal profile of a successful call has `nbins`
entries. -/
theorem radProfFinal_ok_length (θ : ThetaMap) (img : Image) (cfg : Config)
    (prof : List Val) (h : radProfFinal θ img cfg = Except.ok prof) :
    prof.length = radNbins θ img cfg := by
  rw [radProfFinal] at h
  split at h
  · rw [npInterp_ok_length _ _ _ _ _ _ h, radBinCenters, binCentersFull,
      List.length_map, List.length_range]
  · cases h
    exact radProfRaw_length θ img cfg

/-- A successful final radial profile never exceeds `nbins` entries
(`nbins_true` in the mean and sum modes, `nbins` in stddev mode). -/
theorem azProfFinal_ok_length_le (img : Image) (cfg : Config)
    (pf : List Val)
    (hr : 1 ≤ img.rows) (hc : 1 ≤ img.cols) (hb : 0 < cfg.binsize)
    (h : azProfFinal img cfg = Except.ok pf) :
    pf.length ≤ azNbins img cfg := by
  have hnt := azNbinsTrue_lt_azNbins img cfg hr hc hb
  rw [azProfFinal] at h
  split at h
  · rw [npInterp_ok_length _ _ _ _ _ _ h, azBinCenters, List.length_take,
      binCentersFull, List.length_map, List.length_range]
    omega
  · cases h
    rw [azProfRaw]
    split
    · simp
    · split <;> · simp only [List.length_map, List.length_range]; omega

/-- C7: the claim asserts the two `steps=True` arrays always have equal
length.  For `radial_average` they do — both have `2 * nbins` entries —
and each retained bin `k` contributes its two edges at positions `2k`,
`2k + 1` of the x-array with the bin's aggregate (the `steps=False`
profile value) duplicated at the same positions of the y-array.  For
`azimuthal_average` the per-bin correspondence holds likewise, but the
x-array keeps `2 * nbins` samples while the y-array has only
`2 * nbins_true` (the profile is truncated, the `zip(bins[:-1], bins[1:])`
abscissae are not), so in the weighted-mean and sum modes the lengths
always differ. -/
theorem C7_steps_arrays (θ : ThetaMap) (img : Image) (cfg : Config)
    (hr : 1 ≤ img.rows) (hc : 1 ≤ img.cols) (hb : 0 < cfg.binsize) :
    (∀ xa ya out',
      azimuthal_average img { cfg with steps := true } =
        Except.ok (AzOutput.steps xa ya) →
      azimuthal_average img { cfg with steps := false } = Except.ok out' →
      xa.length = 2 * azNbins img cfg ∧
      ya.length = 2 * out'.profile.length ∧
      (∀ k, k < out'.profile.length →
        ya[2 * k]? = out'.profile[k]? ∧
        ya[2 * k + 1]? = out'.profile[k]? ∧
        xa[2 * k]? = some ((k : ℚ) * cfg.binsize) ∧
        xa[2 * k + 1]? = some (((k : ℚ) + 1) * cfg.binsize)) ∧
      (cfg.stddev = false → xa.length ≠ ya.length)) ∧
    (∀ xa ya out',
      radial_average θ img { cfg with steps := true } =
        Except.ok (AzOutput.steps xa ya) →
      radial_average θ img { cfg with steps := false } = Except.ok out' →
      xa.length = ya.length ∧
      ya.length = 2 * out'.profile.length ∧
      (∀ k, k < out'.profile.length →
        ya[2 * k]? = out'.profile[k]? ∧
        ya[2 * k + 1]? = out'.profile[k]? ∧
        xa[2 * k]? = some ((k : ℚ) * cfg.binsize) ∧
        xa[2 * k + 1]? = some (((k : ℚ) + 1) * cfg.binsize))) := by
  constructor
  · intro xa ya out' h1 h2
    rw [azimuthal_average] at h1 h2
    split at h1
    · cases h1
    · split at h2
      · cases h2
      · cases hpf : azProfFinal img cfg with
        | error e =>
          have hpf1 : azProfFinal img { cfg with steps := true } =
              Except.error e := hpf
          rw [hpf1] at h1
          cases h1
        | ok pf =>
          have hpf1 : azProfFinal img { cfg with steps := true } =
              Except.ok pf := hpf
          have hpf2 : azProfFinal img { cfg with steps := false } =
              Except.ok pf := hpf
          rw [hpf1] at h1
          rw [hpf2] at h2
          simp only [Except.map] at h1 h2
          have hsel : selectOutput { cfg with steps := true }
              (azNbins img { cfg with steps := true })
              (azNr img { cfg with steps := true })
              (azBinCenters img { cfg with steps := true }) pf =
              AzOutput.steps (stepsX cfg.binsize (azNbins img cfg))
                (stepsY pf) := rfl
          rw [hsel] at h1
          have hinj := AzOutput.steps.inj (Except.ok.inj h1)
          have hxa : xa = stepsX cfg.binsize (azNbins img cfg) := hinj.1.symm
          have hya : ya = stepsY pf := hinj.2.symm
          have hout' : out'.profile = pf := by
            rw [← Except.ok.inj h2]
            exact profile_selectOutput _ rfl _ _ _ _
          have hle : pf.length ≤ azNbins img cfg :=
            azProfFinal_ok_length_le img cfg pf hr hc hb hpf
          subst hxa hya
          refine ⟨stepsX_length _ _, by rw [stepsY_length, hout'], ?_, ?_⟩
          · intro k hk
            rw [hout'] at hk ⊢
            have hkn : k < azNbins img cfg := by omega
            exact ⟨(stepsY_getElem pf k).1, (stepsY_getElem pf k).2,
              (stepsX_getElem cfg.binsize (azNbins img cfg) k hkn).1,
              (stepsX_getElem cfg.binsize (azNbins img cfg) k hkn).2⟩
          · intro hs
            rw [stepsX_length, stepsY_length,
              azProfFinal_ok_length img cfg pf hr hc hb hs hpf]
            have := azNbinsTrue_lt_azNbins img cfg hr hc hb
            omega
  · intro xa ya out' h1 h2
    rw [radial_average] at h1 h2
    split at h1
    · cases h1
    · split at h2
      · cases h2
      · cases hpf : radProfFinal θ img cfg with
        | error e =>
          have hpf1 : radProfFinal θ img { cfg with steps := true } =
              Except.error e := hpf
          rw [hpf1] at h1
          cases h1
        | ok pf =>
          have hpf1 : radProfFinal θ img { cfg with steps := true } =
              Except.ok pf := hpf
          have hpf2 : radProfFinal θ img { cfg with steps := false } =
              Except.ok pf := hpf
          rw [hpf1] at h1
          rw [hpf2] at h2
          simp only [Except.map] at h1 h2
          have hsel : selectOutput { cfg with steps := true }
              (radNbins θ img { cfg with steps := true })
              (radNr θ img { cfg with steps := true })
              (radBinCenters θ img { cfg with steps := true }) pf =
              AzOutput.steps (stepsX cfg.binsize (radNbins θ img cfg))
                (stepsY pf) := rfl
          rw [hsel] at h1
          have hinj := AzOutput.steps.inj (Except.ok.inj h1)
          have hxa : xa = stepsX cfg.binsize (radNbins θ img cfg) := hinj.1.symm
          have hya : ya = stepsY pf := hinj.2.symm
          have hout' : out'.profile = pf := by
            rw [← Except.ok.inj h2]
            exact profile_selectOutput _ rfl _ _ _ _
          have hlen : pf.length = radNbins θ img cfg :=
            radProfFinal_ok_length θ img cfg pf hpf
          subst hxa hya
          refine ⟨by rw [stepsX_length, stepsY_length, hlen], by
            rw [stepsY_length, hout'], ?_⟩
          intro k hk
          rw [hout'] at hk ⊢
          have hkn : k < radNbins θ img cfg := by omega
          exact ⟨(stepsY_getElem pf k).1, (stepsY_getElem pf k).2,
            (stepsX_getElem cfg.binsize (radNbins θ img cfg) k hkn).1,
            (stepsX_getElem cfg.binsize (radNbins θ img cfg) k hkn).2⟩

set_option maxRecDepth 100000 in
/-- C7 counterexample: on a 3 × 3 image in the default weighted-mean mode,
`azimuthal_average(..., steps=True)` returns an x-array of 8 samples (the
edges of all 4 bins) against a y-array of 4 samples (the 2 retained bins
duplicated): the two arrays do not have equal length, contradicting the
claim. -/
theorem C7_steps_arrays_counterexample :
    (match azimuthal_average imgZeros3 { steps := true } with
      | Except.ok (AzOutput.steps xa ya) => (xa.length, ya.length)
      | _ => (0, 0)) = (8, 4) ∧ (8 : ℕ) ≠ 4 := by
  refine ⟨by decide, by decide⟩

set_option maxRecDepth 100000 in
/-- C7 witness: the amended statement at the 3 × 3 image with the default
configuration — the concrete steps arrays have lengths 8 and 4. -/
theorem C7_steps_arrays_witness :
    ([(0 : ℚ), 1/2, 1/2, 1, 1, 3/2, 3/2, 2] : List ℚ).length ≠
      ([Val.num 0, Val.num 0, Val.nan, Val.nan] : List Val).length := by
  have h1 : azimuthal_average imgZeros3 { steps := true } =
      Except.ok (AzOutput.steps [(0 : ℚ), 1/2, 1/2, 1, 1, 3/2, 3/2, 2]
        [Val.num 0, Val.num 0, Val.nan, Val.nan]) := by decide
  have h2 : azimuthal_average imgZeros3 { steps := false } =
      Except.ok (AzOutput.prof [Val.num 0, Val.nan]) := by decide
  exact ((C7_steps_arrays thetaDemo imgZeros3 {} (by decide) (by decide)
    (by decide)).1 _ _ _ h1 h2).2.2.2 rfl

/-! ### Claim C10 -/

/-- Python `%` is the identity on `[0, 360)`. -/
theorem pmod_small (x : ℚ) (h0 : 0 ≤ x) (h1 : x < 360) : pmod x 360 = x := by
  rw [pmod]
  have hfl : ⌊x / 360⌋ = 0 := by
    rw [Int.floor_eq_zero_iff]
    constructor
    · positivity
    · rw [div_lt_one (by norm_num : (0 : ℚ) < 360)]
      simpa using h1
  rw [hfl]
  push_cast
  ring

/-- Python `%` sends the right endpoint 360 to 0. -/
theorem pmod_full : pmod 360 360 = 0 := by
  rw [pmod]
  norm_num

/-- On `[0, 360]` the reduction is the identity except at 360. -/
theorem pmod_of_range (x : ℚ) (h0 : 0 ≤ x) (h1 : x ≤ 360) :
    pmod x 360 = if x = 360 then 0 else x := by
  split
  · rename_i hx
    rw [hx]
    exact pmod_full
  · rename_i hx
    exact pmod_small x h0 (lt_of_le_of_ne h1 hx)

/-- On `[0, 360]` the reduction is nonnegative. -/
theorem pmod_nonneg_of_range (x : ℚ) (h0 : 0 ≤ x) (h1 : x ≤ 360) :
    0 ≤ pmod x 360 := by
  rw [pmod_of_range x h0 h1]
  split
  · exact le_refl 0
  · exact h0

/-- Pointwise equal loop bodies give equal loops. -/
theorem mapMExcept_congr {α β : Type} (f g : α → Except String β)
    (l : List α) (h : ∀ a ∈ l, f a = g a) :
    mapMExcept f l = mapMExcept g l := by
  induction l with
  | nil => rfl
  | cons a as ih =>
    rw [mapMExcept, mapMExcept, h a (List.mem_cons_self a as),
      ih fun x hx => h x (List.mem_cons_of_mem a hx)]

/-- A pixel selected for a bin passes the mask. -/
theorem mem_selectBin_mask {ps : List (ℕ × ℕ)} {m : (ℕ × ℕ) → Bool}
    {wb : (ℕ × ℕ) → ℕ} {b : ℕ} {p : ℕ × ℕ}
    (hp : p ∈ selectBin ps m wb b) : m p = true := by
  rw [selectBin, List.mem_filter] at hp
  have h2 := hp.2
  rw [Bool.and_eq_true] at h2
  exact h2.1

/-- Masked pixels are the only ones an `azimuthal_average` profile reads:
two images of the same shape agreeing on the mask-passing pixels yield
identical results. -/
theorem azimuthal_average_congr (rows cols : ℕ) (d d' : ℕ → ℕ → ℚ)
    (cfg : Config) (mk : ℕ → ℕ → Bool) (hm : cfg.mask = some mk)
    (hag : ∀ i j, mk i j = true → d i j = d' i j) :
    azimuthal_average ⟨rows, cols, d⟩ cfg =
      azimuthal_average ⟨rows, cols, d'⟩ cfg := by
  have hmk : ∀ p : ℕ × ℕ, maskFn cfg p = true → d p.1 p.2 = d' p.1 p.2 := by
    intro p hp
    rw [maskFn, hm] at hp
    exact hag p.1 p.2 hp
  have hraw : azProfRaw ⟨rows, cols, d⟩ cfg =
      azProfRaw ⟨rows, cols, d'⟩ cfg := by
    rw [azProfRaw, azProfRaw]
    have hwb : azWhichbin ⟨rows, cols, d⟩ cfg =
        azWhichbin ⟨rows, cols, d'⟩ cfg := rfl
    rw [hwb]
    dsimp only
    split
    · apply List.map_congr_left
      intro b _
      congr 1
      apply List.map_congr_left
      intro p hp
      show d p.1 p.2 = d' p.1 p.2
      exact hmk p (mem_selectBin_mask hp)
    · split
      · apply List.map_congr_left
        intro b _
        rw [sumAgg, sumAgg]
        congr 1
        exact congrArg List.sum (List.map_congr_left fun p hp => by
          show d p.1 p.2 * weightFn cfg p = d' p.1 p.2 * weightFn cfg p
          rw [hmk p (mem_selectBin_mask hp)])
      · apply List.map_congr_left
        intro b _
        rw [meanAgg, meanAgg]
        congr 1
        exact congrArg List.sum (List.map_congr_left fun p hp => by
          show d p.1 p.2 * weightFn cfg p = d' p.1 p.2 * weightFn cfg p
          rw [hmk p (mem_selectBin_mask hp)])
  rw [azimuthal_average, azimuthal_average]
  have hfinal : azProfFinal ⟨rows, cols, d⟩ cfg =
      azProfFinal ⟨rows, cols, d'⟩ cfg := by
    rw [azProfFinal, azProfFinal, hraw,
      show azBinCenters ⟨rows, cols, d⟩ cfg =
        azBinCenters ⟨rows, cols, d'⟩ cfg from rfl]
  rw [hfinal,
    show azNbins ⟨rows, cols, d⟩ cfg = azNbins ⟨rows, cols, d'⟩ cfg from rfl,
    show azNr ⟨rows, cols, d⟩ cfg = azNr ⟨rows, cols, d'⟩ cfg from rfl,
    show azBinCenters ⟨rows, cols, d⟩ cfg =
      azBinCenters ⟨rows, cols, d'⟩ cfg from rfl]

/-- Masked pixels are the only ones a `radial_average` profile reads. -/
theorem radial_average_congr (θ : ThetaMap) (rows cols : ℕ)
    (d d' : ℕ → ℕ → ℚ) (cfg : Config) (mk : ℕ → ℕ → Bool)
    (hm : cfg.mask = some mk)
    (hag : ∀ i j, mk i j = true → d i j = d' i j) :
    radial_average θ ⟨rows, cols, d⟩ cfg =
      radial_average θ ⟨rows, cols, d'⟩ cfg := by
  have hmk : ∀ p : ℕ × ℕ, maskFn cfg p = true → d p.1 p.2 = d' p.1 p.2 := by
    intro p hp
    rw [maskFn, hm] at hp
    exact hag p.1 p.2 hp
  have hraw : radProfRaw θ ⟨rows, cols, d⟩ cfg =
      radProfRaw θ ⟨rows, cols, d'⟩ cfg := by
    rw [radProfRaw, radProfRaw]
    have hwb : radWhichbin θ ⟨rows, cols, d⟩ cfg =
        radWhichbin θ ⟨rows, cols, d'⟩ cfg := rfl
    rw [hwb]
    dsimp only
    split
    · apply List.map_congr_left
      intro b _
      congr 1
      apply List.map_congr_left
      intro p hp
      show d p.1 p.2 = d' p.1 p.2
      exact hmk p (mem_selectBin_mask hp)
    · apply List.map_congr_left
      intro b _
      rw [meanAgg, meanAgg]
      congr 1
      exact congrArg List.sum (List.map_congr_left fun p hp => by
        show d p.1 p.2 * weightFn cfg p = d' p.1 p.2 * weightFn cfg p
        rw [hmk p (mem_selectBin_mask hp)])
  rw [radial_average, radial_average]
  have hfinal : radProfFinal θ ⟨rows, cols, d⟩ cfg =
      radProfFinal θ ⟨rows, cols, d'⟩ cfg := by
    rw [radProfFinal, radProfFinal, hraw,
      show radBinCenters θ ⟨rows, cols, d⟩ cfg =
        radBinCenters θ ⟨rows, cols, d'⟩ cfg from rfl]
  rw [hfinal,
    show radNbins θ ⟨rows, cols, d⟩ cfg =
      radNbins θ ⟨rows, cols, d'⟩ cfg from rfl,
    show radNr θ ⟨rows, cols, d⟩ cfg = radNr θ ⟨rows, cols, d'⟩ cfg from rfl,
    show radBinCenters θ ⟨rows, cols, d⟩ cfg =
      radBinCenters θ ⟨rows, cols, d'⟩ cfg from rfl]

/-- C10: both `_bins` variants test their masks with strict inequalities
on both sides, so a pixel landing exactly on a boundary — its distance
equal to a band boundary, respectively its angle equal to a sector
boundary reduced modulo 360 — is excluded from every band (sector),
in particular from the two adjacent ones, and therefore contributes to no
returned profile: replacing the image value at such a pixel changes
nothing.  Boundary sequences are non-decreasing (the spec's bin-edge data
model), and sector boundaries live in the angle domain `[0, 360]`. -/
theorem C10_boundary_pixel_excluded (θ : ThetaMap) (rows cols : ℕ)
    (d d' : ℕ → ℕ → ℚ) (cfg : Config) (center : Option (ℚ × ℚ))
    (sym : Option ℕ) (rb : List ℚ) (k : ℕ) (p0 : ℕ × ℕ)
    (hsorted : List.Sorted (· ≤ ·) rb) (hk : k < rb.length)
    (hagree : ∀ i j, ¬(i = p0.1 ∧ j = p0.2) → d i j = d' i j) :
    (0 ≤ rb[k] →
      r2At (center.getD (defaultCenter ⟨rows, cols, d⟩)) p0 = rb[k] ^ 2 →
      (∀ m, (hm : m < (rb.zip rb.tail).length) →
        bandMask (center.getD (defaultCenter ⟨rows, cols, d⟩))
          ((rb.zip rb.tail)[m]).1 ((rb.zip rb.tail)[m]).2 p0 = false) ∧
      radial_average_bins θ ⟨rows, cols, d⟩ rb center cfg =
        radial_average_bins θ ⟨rows, cols, d'⟩ rb center cfg) ∧
    ((∀ x ∈ rb, 0 ≤ x ∧ x ≤ 360) →
      θ p0.1 p0.2 = pmod rb[k] 360 →
      (∀ m, (hm : m < (rb.zip rb.tail).length) →
        sectorMask θ ((rb.zip rb.tail)[m]).1 ((rb.zip rb.tail)[m]).2 p0 =
          false) ∧
      azimuthal_average_bins θ ⟨rows, cols, d⟩ (BinArg.arr rb) sym center
          cfg =
        azimuthal_average_bins θ ⟨rows, cols, d'⟩ (BinArg.arr rb) sym center
          cfg) := by
  have hmono : ∀ i j (hi : i < rb.length) (hj : j < rb.length), i ≤ j →
      rb[i] ≤ rb[j] := by
    intro i j hi hj hij
    rcases eq_or_lt_of_le hij with h | h
    · subst h
      exact le_refl _
    · have := hsorted.rel_get_of_lt
        (a := ⟨i, hi⟩) (b := ⟨j, hj⟩) (Fin.mk_lt_mk.mpr h)
      simpa using this
  have hpairlen : ∀ {m : ℕ}, m < (rb.zip rb.tail).length →
      m + 1 < rb.length := by
    intro m hm
    rw [List.length_zip, List.length_tail] at hm
    omega
  constructor
  · intro h0 hr2
    have hmaskF : ∀ m, (hm : m < (rb.zip rb.tail).length) →
        bandMask (center.getD (defaultCenter ⟨rows, cols, d⟩))
          ((rb.zip rb.tail)[m]).1 ((rb.zip rb.tail)[m]).2 p0 = false := by
      intro m hm
      have hm1 : m + 1 < rb.length := hpairlen hm
      have hpair : (rb.zip rb.tail)[m] = (rb[m], rb[m + 1]) := by
        rw [List.getElem_zip, List.getElem_tail]
      rw [hpair, bandMask, hr2]
      rcases le_or_lt (m + 1) k with hmk | hmk
      · have hle : rb[m + 1] ≤ rb[k] := hmono _ _ _ _ hmk
        have hfalse : ltSqrtB (rb[m + 1]) (rb[k] ^ 2) = false := by
          rw [ltSqrtB, decide_eq_false_iff_not]
          rintro ⟨hpos, hlt⟩
          nlinarith
        rw [hfalse, Bool.false_and]
      · have hge : rb[k] ≤ rb[m] := hmono _ _ _ _ (by omega)
        have hfalse : gtSqrtB (rb[m]) (rb[k] ^ 2) = false := by
          rw [gtSqrtB, decide_eq_false_iff_not]
          push_neg
          refine ⟨by linarith, by nlinarith⟩
        rw [hfalse, Bool.and_false]
    refine ⟨hmaskF, ?_⟩
    rw [radial_average_bins, radial_average_bins]
    rw [show defaultCenter ⟨rows, cols, d'⟩ = defaultCenter ⟨rows, cols, d⟩
      from rfl]
    have hmapeq : mapMExcept
        (radBandCall θ ⟨rows, cols, d⟩ cfg
          (center.getD (defaultCenter ⟨rows, cols, d⟩)))
        (rb.zip rb.tail) =
      mapMExcept
        (radBandCall θ ⟨rows, cols, d'⟩ cfg
          (center.getD (defaultCenter ⟨rows, cols, d⟩)))
        (rb.zip rb.tail) := by
      apply mapMExcept_congr
      intro s hs
      obtain ⟨m, hm, hms⟩ := List.getElem_of_mem hs
      rw [radBandCall, radBandCall]
      have hcongr := radial_average_congr θ rows cols d d'
        { cfg with
            center := some (center.getD (defaultCenter ⟨rows, cols, d⟩)),
            mask := some (fun i j =>
              bandMask (center.getD (defaultCenter ⟨rows, cols, d⟩))
                s.1 s.2 (i, j)),
            returnradii := true }
        (fun i j => bandMask (center.getD (defaultCenter ⟨rows, cols, d⟩))
          s.1 s.2 (i, j)) rfl ?_
      · rw [hcongr]
      · intro i j hij
        by_cases hp0 : i = p0.1 ∧ j = p0.2
        · exfalso
          have hmf := hmaskF m hm
          rw [hms] at hmf
          rw [hp0.1, hp0.2] at hij
          have : bandMask
              (center.getD (defaultCenter ⟨rows, cols, d⟩)) s.1 s.2
              (p0.1, p0.2) = true := hij
          rw [show (p0.1, p0.2) = p0 from rfl] at this
          rw [this] at hmf
          cases hmf
        · exact hagree i j hp0
    rw [hmapeq]
  · intro hrange hθ
    have hθ0 : 0 ≤ θ p0.1 p0.2 := by
      rw [hθ]
      exact pmod_nonneg_of_range _ (hrange _ (List.getElem_mem hk)).1
        (hrange _ (List.getElem_mem hk)).2
    have hmaskF : ∀ m, (hm : m < (rb.zip rb.tail).length) →
        sectorMask θ ((rb.zip rb.tail)[m]).1 ((rb.zip rb.tail)[m]).2 p0 =
          false := by
      intro m hm
      have hm1 : m + 1 < rb.length := hpairlen hm
      have hpair : (rb.zip rb.tail)[m] = (rb[m], rb[m + 1]) := by
        rw [List.getElem_zip, List.getElem_tail]
      rw [hpair, sectorMask]
      have hrk := hrange _ (List.getElem_mem hk)
      have hrm := hrange _ (List.getElem_mem (Nat.lt_of_succ_lt hm1))
      have hrm1 := hrange _ (List.getElem_mem hm1)
      by_cases hk360 : rb[k] = (360 : ℚ)
      · have hθ0' : θ p0.1 p0.2 = 0 := by
          rw [hθ, hk360, pmod_full]
        have hfalse : decide (pmod (rb[m]) 360 < θ p0.1 p0.2) = false := by
          rw [decide_eq_false_iff_not, hθ0']
          push_neg
          exact pmod_nonneg_of_range _ hrm.1 hrm.2
        rw [hfalse, Bool.false_and]
      · have hklt : rb[k] < 360 := lt_of_le_of_ne hrk.2 hk360
        have hθval : θ p0.1 p0.2 = rb[k] := by
          rw [hθ, pmod_small _ hrk.1 hklt]
        rcases le_or_lt (m + 1) k with hmk | hmk
        · have hle : rb[m + 1] ≤ rb[k] := hmono _ _ _ _ hmk
          have hm1lt : rb[m + 1] < 360 := lt_of_le_of_lt hle hklt
          have hfalse : decide (θ p0.1 p0.2 < pmod (rb[m + 1]) 360) =
              false := by
            rw [decide_eq_false_iff_not, pmod_small _ hrm1.1 hm1lt, hθval]
            push_neg
            exact hle
          rw [hfalse, Bool.and_false]
        · have hge : rb[k] ≤ rb[m] := hmono _ _ _ _ (by omega)
          by_cases hm360 : rb[m] = (360 : ℚ)
          · have hm1v : rb[m + 1] = (360 : ℚ) := by
              have h1 : rb[m] ≤ rb[m + 1] := hmono _ _ _ _ (by omega)
              have h2 := hrm1.2
              rw [hm360] at h1
              linarith
            have hfalse : decide (θ p0.1 p0.2 < pmod (rb[m + 1]) 360) =
                false := by
              rw [decide_eq_false_iff_not, hm1v, pmod_full, hθval]
              push_neg
              exact hrk.1
            rw [hfalse, Bool.and_false]
          · have hmlt : rb[m] < 360 := lt_of_le_of_ne hrm.2 hm360
            have hfalse : decide (pmod (rb[m]) 360 < θ p0.1 p0.2) =
                false := by
              rw [decide_eq_false_iff_not, pmod_small _ hrm.1 hmlt, hθval]
              push_neg
              exact hge
            rw [hfalse, Bool.false_and]
    refine ⟨hmaskF, ?_⟩
    rw [azimuthal_average_bins, azimuthal_average_bins]
    rw [show defaultCenter ⟨rows, cols, d'⟩ = defaultCenter ⟨rows, cols, d⟩
      from rfl]
    have hmapeq : mapMExcept
        (azSectorCall ⟨rows, cols, d⟩ cfg
          (center.getD (defaultCenter ⟨rows, cols, d⟩))
          (azbinsResolved θ (BinArg.arr rb) sym).1)
        ((azbinsResolved θ (BinArg.arr rb) sym).2.zip
          (azbinsResolved θ (BinArg.arr rb) sym).2.tail) =
      mapMExcept
        (azSectorCall ⟨rows, cols, d'⟩ cfg
          (center.getD (defaultCenter ⟨rows, cols, d⟩))
          (azbinsResolved θ (BinArg.arr rb) sym).1)
        ((azbinsResolved θ (BinArg.arr rb) sym).2.zip
          (azbinsResolved θ (BinArg.arr rb) sym).2.tail) := by
      apply mapMExcept_congr
      intro s hs
      have hs' : s ∈ rb.zip rb.tail := hs
      obtain ⟨m, hm, hms⟩ := List.getElem_of_mem hs'
      rw [azSectorCall, azSectorCall]
      have hcongr := azimuthal_average_congr rows cols d d'
        { cfg with
            center := some (center.getD (defaultCenter ⟨rows, cols, d⟩)),
            mask := some (fun i j => sectorMask θ s.1 s.2 (i, j)),
            returnradii := true }
        (fun i j => sectorMask θ s.1 s.2 (i, j)) rfl ?_
      · rw [show ((azbinsResolved θ (BinArg.arr rb) sym).1 : ThetaMap) = θ
          from rfl]
        rw [hcongr]
      · intro i j hij
        by_cases hp0 : i = p0.1 ∧ j = p0.2
        · exfalso
          have hmf := hmaskF m hm
          rw [hms] at hmf
          rw [hp0.1, hp0.2] at hij
          have : sectorMask θ s.1 s.2 (p0.1, p0.2) = true := hij
          rw [show (p0.1, p0.2) = p0 from rfl] at this
          rw [this] at hmf
          cases hmf
        · exact hagree i j hp0
    rw [hmapeq]

set_option maxRecDepth 100000 in
/-- Witness for C10: on a 1×3 image with boundaries `[0, 1, 2]`, the pixel
`(0, 0)` lies at distance exactly `1` from the default center `(1, 0)`;
changing the image value there does not change the output of
`radial_average_bins`. -/
theorem C10_boundary_pixel_excluded_witness :
    List.Sorted (fun a b : ℚ => a ≤ b) [0, 1, 2] ∧
    radial_average_bins thetaDemo ⟨1, 3, fun _ j => (j : ℚ)⟩ [0, 1, 2]
        none {} =
      radial_average_bins thetaDemo
        ⟨1, 3, fun i j => if i = 0 ∧ j = 0 then 5 else (j : ℚ)⟩ [0, 1, 2]
        none {} := by
  refine ⟨by decide, ?_⟩
  exact ((C10_boundary_pixel_excluded thetaDemo 1 3
    (fun _ j => (j : ℚ)) (fun i j => if i = 0 ∧ j = 0 then 5 else (j : ℚ))
    {} none none [0, 1, 2] 1 (0, 0)
    (by decide) (by decide)
    (fun i j hij => (if_neg hij).symm)).1
    (by decide) (by decide)).2

end RadialProfile
